import Mathlib

/-!
Verification development for the capstone AI report generator backend.

Shallow embedding of the agent pipeline pieces that the specification's
claims are about:

* `ComposeAgent` — `_apply_layout_sequence` and `_fallback_layout` from
  `backend/app/agents/compose_agent.py`;
* `QueryExecutor` — `_resolve_reference`, `_resolve_params`,
  `_calculate_demographics_stats` and the `execute_data_queries` loop from
  `backend/app/agents/query_executor.py`;
* `ApiBundleLoader` — `_substitute_vars` from
  `backend/app/agents/api_bundle_loader.py`;
* `QueryBundleLoader` — `_substitute_vars`, `_parse_query_array`,
  `resolve_bundles` / `_load_bundle` from
  `backend/app/agents/query_bundle_loader.py`.

Python values are modelled by the inductive type `PyVal` (floats become
exact rationals), Python exceptions by `Except`, Python dicts by ordered
association lists with replace-on-assignment, and the unbounded recursion of
`_load_bundle` by an explicit fuel parameter: one unit of fuel is one stack
frame, so a call diverges in Python exactly when it exhausts every finite
fuel in the model.
-/

/-- A Python runtime value, as used by the agent configuration and data
pipeline.  Python floats are modelled as exact rationals. -/
inductive PyVal where
  | none : PyVal
  | bool (b : Bool) : PyVal
  | int (n : Int) : PyVal
  | float (q : Rat) : PyVal
  | str (s : String) : PyVal
  | list (xs : List PyVal) : PyVal
  | dict (kvs : List (String × PyVal)) : PyVal
deriving Repr

/-- `d.get(key)` on a Python dict (ordered association list, first match). -/
def dictGet : List (String × PyVal) → String → Option PyVal
  | [], _ => Option.none
  | (k, v) :: kvs, key => if k = key then some v else dictGet kvs key

/-- `d.get(key, default)` on a Python dict. -/
def dictGetD (kvs : List (String × PyVal)) (key : String) (dflt : PyVal) : PyVal :=
  (dictGet kvs key).getD dflt

/-- `key in d` on a Python dict. -/
def dictHas (kvs : List (String × PyVal)) (key : String) : Bool :=
  (dictGet kvs key).isSome

/-- `d[key] = v` on a Python dict: replace the value in place if the key is
present, otherwise append the binding at the end (insertion order). -/
def dictSet : List (String × PyVal) → String → PyVal → List (String × PyVal)
  | [], key, v => [(key, v)]
  | (k, w) :: kvs, key, v =>
    if k = key then (k, v) :: kvs else (k, w) :: dictSet kvs key v

/-- Python truthiness of a value (`if value:`). -/
def pyTruthy : PyVal → Bool
  | .none => false
  | .bool b => b
  | .int n => n != 0
  | .float q => q != 0
  | .str s => s ≠ ""
  | .list xs => !xs.isEmpty
  | .dict kvs => !kvs.isEmpty

/-- The opening-brace character, written by code point to keep brace
characters out of string literals. -/
def lbrace : Char := Char.ofNat 123

/-- The closing-brace character. -/
def rbrace : Char := Char.ofNat 125

/-- First character of a Python identifier: `[a-zA-Z_]`. -/
def identStart (c : Char) : Bool :=
  (c ≥ 'a' && c ≤ 'z') || (c ≥ 'A' && c ≤ 'Z') || c = '_'

/-- Later character of a Python identifier: `[a-zA-Z0-9_]`. -/
def identCont (c : Char) : Bool :=
  identStart c || (c ≥ '0' && c ≤ '9')

/-- `str.replace(pat, rep)`: replace all non-overlapping occurrences, left to
right.  The fuel is an upper bound on the scan length; the callers pass the
length of the input, which suffices because every step consumes at least one
character (all patterns used are nonempty). -/
def replaceAll (pat rep : List Char) : Nat → List Char → List Char
  | 0, cs => cs
  | n + 1, cs =>
    if pat.isPrefixOf cs then rep ++ replaceAll pat rep n (cs.drop pat.length)
    else match cs with
      | [] => []
      | c :: rest => c :: replaceAll pat rep n rest

/-- `str.replace` on strings. -/
def pyReplace (s pat rep : String) : String :=
  String.mk (replaceAll pat.data rep.data s.data.length s.data)

/-- `str.isdigit()` restricted to ASCII digits (the only digits that occur in
this pipeline): nonempty and all characters in `0-9`. -/
def pyIsdigit (s : String) : Bool :=
  s ≠ "" && s.data.all Char.isDigit

/-- Numeric value of an all-digit string (the value `int(s)` computes for a
string accepted by `str.isdigit`). -/
def digitsToNat (cs : List Char) : Nat :=
  cs.foldl (fun a c => a * 10 + (c.toNat - 48)) 0

/-- Python `int(s)`: optional single sign followed by a nonempty digit
string; anything else raises, modelled as `Option.none`. -/
def pyIntParse (s : String) : Option Int :=
  match s.data with
  | [] => Option.none
  | '-' :: ds =>
    if ds ≠ [] && ds.all Char.isDigit then some (-(digitsToNat ds : Int)) else Option.none
  | '+' :: ds =>
    if ds ≠ [] && ds.all Char.isDigit then some ((digitsToNat ds : Int)) else Option.none
  | ds =>
    if ds.all Char.isDigit then some ((digitsToNat ds : Int)) else Option.none

/-- `str.split('.')` on character lists. -/
def splitOnDot : List Char → List (List Char)
  | [] => [[]]
  | c :: rest =>
    let r := splitOnDot rest
    if c = '.' then [] :: r
    else (c :: r.headD []) :: r.tail

/-- One sign-free decimal literal: digits with at most one decimal point and
at least one digit overall. -/
def decCore (ds : List Char) : Option Rat :=
  match splitOnDot ds with
  | [ip] => if ip ≠ [] && ip.all Char.isDigit then some ((digitsToNat ip : Rat)) else Option.none
  | [ip, fp] =>
    if (ip ++ fp) ≠ [] && ip.all Char.isDigit && fp.all Char.isDigit then
      some ((digitsToNat ip : Rat) + (digitsToNat fp : Rat) / ((10 : Rat) ^ fp.length))
    else Option.none
  | _ => Option.none

/-- Python `float(s)` on plain decimal literals: optional sign, digits with
at most one decimal point, at least one digit overall.  Exotic forms
(exponents, `inf`, `nan`) do not occur in this pipeline and are rejected. -/
def pyFloatParse (s : String) : Option Rat :=
  match s.data with
  | '-' :: ds => (decCore ds).map (fun q => -q)
  | '+' :: ds => decCore ds
  | ds => decCore ds

/-- Python `float(x)` on a runtime value (`TypeError`/`ValueError` as
`Except.error`). -/
def pyFloatOfVal : PyVal → Except String Rat
  | .bool b => .ok (if b then 1 else 0)
  | .int n => .ok (n : Rat)
  | .float q => .ok q
  | .str s =>
    match pyFloatParse s with
    | some q => .ok q
    | Option.none => .error ("could not convert string to float: " ++ s)
  | _ => .error "float() argument has an invalid type"

/-- Python `x or 0`. -/
def pyOr0 (v : PyVal) : PyVal :=
  if pyTruthy v then v else .int 0

/-- Python `round(q, 1)` on exact rationals: round half to even. -/
def pyRound1 (q : Rat) : Rat :=
  let t := q * 10
  let n := Rat.floor t
  let r := t - (n : Rat)
  let m : Int :=
    if r < 1 / 2 then n
    else if r > 1 / 2 then n + 1
    else if n % 2 = 0 then n else n + 1
  (m : Rat) / 10

/-- Decimal rendering of a rational that has an exact finite decimal
expansion of at most `fuel` digits (used by `pyStr` for floats). -/
def fracDigits : Nat → Nat → Nat → String
  | 0, _, _ => ""
  | _ + 1, 0, _ => ""
  | fuel + 1, rem, den =>
    let d := rem * 10 / den
    let rem2 := rem * 10 % den
    String.mk [Char.ofNat (48 + d)] ++ fracDigits fuel rem2 den

/-- Python `str(x)` for a float modelled as a rational. -/
def floatStr (q : Rat) : String :=
  let sign := if q < 0 then "-" else ""
  let a := q.num.natAbs
  let d := q.den
  let ip := a / d
  let rm := a % d
  if rm = 0 then sign ++ toString ip ++ ".0"
  else sign ++ toString ip ++ "." ++ fracDigits 32 rm d

/-- Python `str(x)` on a runtime value.  The container cases stand in for
Python's `repr`-style rendering; no claim exercises them. -/
def pyStr : PyVal → String
  | .none => "None"
  | .bool b => if b then "True" else "False"
  | .int n => toString n
  | .float q => floatStr q
  | .str s => s
  | .list _ => "[python list repr]"
  | .dict _ => "[python dict repr]"

namespace ComposeAgent

/-- One output slot of `_apply_layout_sequence` / `_fallback_layout`: the
composed block list is itself a list of Python dicts, where a constructed
`row` container carries a `children` list.  Blocks stay `PyVal` dicts. -/
def mkRowFallback (b1 b2 : PyVal) : PyVal :=
  .dict [("type", .str "row"), ("gap", .str "24px"), ("children", .list [b1, b2])]

/-- The `row`/container dict built by `_apply_layout_sequence`. -/
def mkContainer (ty : PyVal) (gap : PyVal) (children : List PyVal) : PyVal :=
  .dict [("type", ty), ("gap", gap), ("children", .list children)]

/-- Select `block_drafts[n]` when the Python guard
`isinstance(idx, int) and 0 <= idx < len(block_drafts)` passes. -/
def selectBlock (block_drafts : List PyVal) (idx : PyVal) : Option PyVal :=
  match idx with
  | .int n =>
    if h : 0 ≤ n ∧ n.toNat < block_drafts.length then
      some (block_drafts.get ⟨n.toNat, h.2⟩)
    else Option.none
  | _ => Option.none

/-- Loop body of `_apply_layout_sequence`, one sequence item at a time. -/
def applySeqGo (block_drafts : List PyVal) : List PyVal → List PyVal
  | [] => []
  | item :: rest =>
    match item with
    | .int n =>
      match selectBlock block_drafts (.int n) with
      | some b => b :: applySeqGo block_drafts rest
      | Option.none => applySeqGo block_drafts rest
    | .dict kvs =>
      let container_type := dictGetD kvs "type" (.str "row")
      let indices : List PyVal :=
        match dictGetD kvs "indices" (.list []) with
        | .list xs => xs
        | _ => []
      let gap := dictGetD kvs "gap" (.str "16px")
      let children := indices.filterMap (selectBlock block_drafts)
      if !children.isEmpty then
        mkContainer container_type gap children :: applySeqGo block_drafts rest
      else applySeqGo block_drafts rest
    | _ => applySeqGo block_drafts rest

/-- `compose_agent._apply_layout_sequence`: materialise an externally
supplied layout sequence.  Integer items select single blocks (out-of-range
indices are dropped); dict items build a container from their `indices`
(non-integer or out-of-range entries are dropped, empty containers are
dropped); other items are ignored; an empty sequence returns a copy of the
input. -/
def _apply_layout_sequence (block_drafts : List PyVal) (layout_sequence : List PyVal) :
    List PyVal :=
  if layout_sequence.isEmpty then block_drafts
  else applySeqGo block_drafts layout_sequence

/-- Is this block a chart whose `chartType` is `doughnut`, in the sense of
the guard on the *current* block of `_fallback_layout`
(`current.get("type", "") == "chart" and current.get("chartType") == "doughnut"`)? -/
def isDoughnutCur (b : PyVal) : Bool :=
  match b with
  | .dict kvs =>
    (match dictGetD kvs "type" (.str "") with
     | .str "chart" => true
     | _ => false)
    &&
    (match dictGet kvs "chartType" with
     | some (.str "doughnut") => true
     | _ => false)
  | _ => false

/-- The guard on the *next* block of `_fallback_layout`
(`next_block.get("type") == "chart" and next_block.get("chartType") == "doughnut"`). -/
def isDoughnutNext (b : PyVal) : Bool :=
  match b with
  | .dict kvs =>
    (match dictGet kvs "type" with
     | some (.str "chart") => true
     | _ => false)
    &&
    (match dictGet kvs "chartType" with
     | some (.str "doughnut") => true
     | _ => false)
  | _ => false

/-- `compose_agent._fallback_layout`: rule-based layout used when the LLM
does not produce a placement decision.  Scans the flat list and merges any
two consecutive doughnut charts into a `row`; everything else is kept in
original order. -/
def _fallback_layout : List PyVal → List PyVal
  | [] => []
  | [b] => [b]
  | b :: b2 :: rest =>
    if isDoughnutCur b && isDoughnutNext b2 then
      mkRowFallback b b2 :: _fallback_layout rest
    else
      b :: _fallback_layout (b2 :: rest)

/-- Flatten one composed output slot: a dict with a `children` list yields
its children, anything else yields itself.  This is the "flattening all
row children" reading used by the coverage claims. -/
def flattenOne (b : PyVal) : List PyVal :=
  match b with
  | .dict kvs =>
    match dictGet kvs "children" with
    | some (.list cs) => cs
    | _ => [b]
  | _ => [b]

/-- Flatten a composed block list. -/
def flattenBlocks (bs : List PyVal) : List PyVal :=
  bs.flatMap flattenOne

/-- All block indices referenced by a layout sequence, in order: top-level
integer items and the integer entries of every container's `indices`. -/
def gatherIndices : List PyVal → List Int
  | [] => []
  | .int n :: rest => n :: gatherIndices rest
  | .dict kvs :: rest =>
    (match dictGetD kvs "indices" (.list []) with
     | .list xs => xs.filterMap (fun idx => match idx with
        | .int n => some n
        | _ => Option.none)
     | _ => []) ++ gatherIndices rest
  | _ :: rest => gatherIndices rest

/-- A flat input block: a plain (non-container) dict, with no `children`
key, so that flattening the composed output never opens an *input* block.
All real drafts (charts, tables, markdown, maps, ...) satisfy this. -/
def flatBlock (b : PyVal) : Prop :=
  flattenOne b = [b]

/-- The blocks one layout-sequence item contributes after flattening:
the selected block of a valid integer item, the selected children of a
container item, nothing otherwise. -/
def itemBlocks (block_drafts : List PyVal) : PyVal → List PyVal
  | .int n => (selectBlock block_drafts (.int n)).toList
  | .dict kvs =>
    (match dictGetD kvs "indices" (.list []) with
     | .list xs => xs
     | _ => []).filterMap (selectBlock block_drafts)
  | _ => []

/-- No two adjacent output slots form a mergeable doughnut pair — the sense
in which the fallback merges *every* two consecutive doughnut charts. -/
def noMergeableAdjacent : List PyVal → Bool
  | b1 :: b2 :: rest => !(isDoughnutCur b1 && isDoughnutNext b2) && noMergeableAdjacent (b2 :: rest)
  | _ => true

end ComposeAgent

namespace QueryExecutor

/-- Parse, directly after an opening brace, the body of a cross-step
reference: `ident('.'ident)*` followed by the closing brace, where `ident`
is `[a-zA-Z_][a-zA-Z0-9_]*`.  Returns the dotted-path segments and the
remaining characters after the closing brace; `Option.none` when the
regex `\{[a-zA-Z_][a-zA-Z0-9_]*(\.[a-zA-Z_][a-zA-Z0-9_]*)*\}` does not
match here (the pattern needs no backtracking: identifiers are maximal
munch because neither `.` nor the closing brace is an identifier
character).  The fuel bounds the number of segments; callers pass the
input length plus one, which always suffices. -/
def parseSegs : Nat → List Char → Option (List String × List Char)
  | 0, _ => Option.none
  | fuel + 1, cs =>
    match cs with
    | [] => Option.none
    | c :: rest =>
      if identStart c then
        let seg := c :: rest.takeWhile identCont
        let rest1 := rest.dropWhile identCont
        match rest1 with
        | [] => Option.none
        | d :: rest2 =>
          if d = '.' then
            match parseSegs fuel rest2 with
            | some (segs, r) => some (String.mk seg :: segs, r)
            | Option.none => Option.none
          else if d = rbrace then some ([String.mk seg], rest2)
          else Option.none
      else Option.none

/-- The dotted join of path segments, as characters. -/
def joinDots : List String → List Char
  | [] => []
  | [s] => s.data
  | s :: rest => s.data ++ '.' :: joinDots rest

/-- The reference-literal text `"{" ++ path ++ "}"` that `match.group(0)`
denotes for a parsed dotted path. -/
def refLiteral (segs : List String) : List Char :=
  lbrace :: joinDots segs ++ [rbrace]

/-- The dotted-path walk of `_resolve_reference`'s `replacer`: step through
dicts by key; on a nonempty list, use the first element (`None` when it is
not a dict or lacks the key); any other situation returns the literal
unchanged, modelled as `Option.none`. -/
def walkVal : PyVal → List String → Option PyVal
  | v, [] => some v
  | v, part :: parts =>
    match v with
    | .dict kvs =>
      match dictGet kvs part with
      | some v2 => walkVal v2 parts
      | Option.none => Option.none
    | .list (x :: _) =>
      walkVal (match x with
               | .dict kvs => dictGetD kvs part PyVal.none
               | _ => PyVal.none) parts
    | _ => Option.none

/-- Full path resolution, including the final
`str(result) if result is not None else match.group(0)` step: `some s`
means the reference is replaced by `s`, `Option.none` means the original
literal text is kept. -/
def walkPath (context : List (String × PyVal)) (segs : List String) : Option String :=
  match walkVal (.dict context) segs with
  | some PyVal.none => Option.none
  | some v => some (pyStr v)
  | Option.none => Option.none

/-- The `re.sub` scan of `_resolve_reference` over the character list: at
an opening brace, try to match a reference; on a match, substitute (or
keep the literal, when the walk fails); otherwise copy one character and
continue.  Fuel bounds the scan; the input length suffices since every
step consumes at least one character. -/
def resolveRefCore (context : List (String × PyVal)) : Nat → List Char → List Char
  | 0, cs => cs
  | fuel + 1, cs =>
    match cs with
    | [] => []
    | c :: rest =>
      if c = lbrace then
        match parseSegs (rest.length + 1) rest with
        | some (segs, rest2) =>
          (match walkPath context segs with
           | some s => s.data
           | Option.none => refLiteral segs) ++ resolveRefCore context fuel rest2
        | Option.none => c :: resolveRefCore context fuel rest
      else c :: resolveRefCore context fuel rest

/-- All dotted paths of the references occurring in a template, in scan
order (same scan as `resolveRefCore`). -/
def refPaths : Nat → List Char → List (List String)
  | 0, _ => []
  | fuel + 1, cs =>
    match cs with
    | [] => []
    | c :: rest =>
      if c = lbrace then
        match parseSegs (rest.length + 1) rest with
        | some (segs, rest2) => segs :: refPaths fuel rest2
        | Option.none => refPaths fuel rest
      else refPaths fuel rest

/-- `query_executor._resolve_reference`: substitute every
`{key.field...}` reference in a string using the execution context;
non-strings pass through unchanged. -/
def _resolve_reference (value : PyVal) (context : List (String × PyVal)) : PyVal :=
  match value with
  | .str s => .str (String.mk (resolveRefCore context s.data.length s.data))
  | v => v

mutual

/-- `query_executor._resolve_params`: resolve references in every string
value of a params dict, then coerce a resolved string to `int` exactly
when `str.isdigit` accepts it; recurse into nested dicts; leave all other
values untouched. -/
def _resolve_params (params : List (String × PyVal)) (context : List (String × PyVal)) :
    List (String × PyVal) :=
  match params with
  | [] => []
  | (key, value) :: rest =>
    (key, resolveParamVal value context) :: _resolve_params rest context

/-- The per-value action of `_resolve_params`. -/
def resolveParamVal (value : PyVal) (context : List (String × PyVal)) : PyVal :=
  match value with
  | .str s =>
    let resolved_val := String.mk (resolveRefCore context s.data.length s.data)
    if pyIsdigit resolved_val then .int ((digitsToNat resolved_val.data : Int))
    else .str resolved_val
  | .dict kvs => .dict (_resolve_params kvs context)
  | v => v

end

/-- The `has_data: False` result for an empty demographics list. -/
def noDemoData : PyVal :=
  .dict [("has_data", .bool false), ("summary", .str "인구통계 데이터가 없습니다.")]

/-- The `has_data: False` result when no column-naming convention matches. -/
def unrecognizedDemo : PyVal :=
  .dict [("has_data", .bool false), ("summary", .str "인구통계 데이터 형식을 인식할 수 없습니다.")]

/-- The `has_data: False` result when a convention matches but every age
bucket is zero. -/
def emptyDemo : PyVal :=
  .dict [("has_data", .bool false), ("summary", .str "인구통계 데이터가 비어있습니다.")]

/-- The fixed age buckets of `_calculate_demographics_stats`. -/
def age_groups : List String := ["20", "30", "40", "50", "60", "70"]

/-- Shared accumulation loop of the three demographics branches: for each
age bucket read the male and female columns (`float(data.get(key, 0) or
0)`, scaled by 100 for the percentage-fraction providers), record the
rounded bucket total and accumulate the gender sums.  A non-numeric column
value makes `float()` raise, modelled as `Except.error`. -/
def demoAccum (data : List (String × PyVal)) (mkey fkey : String → String) (scale : Rat) :
    Except String (List (String × Rat) × Rat × Rat) :=
  age_groups.foldlM (fun acc age => do
    let male_val ← pyFloatOfVal (pyOr0 (dictGetD data (mkey age) (.int 0)))
    let female_val ← pyFloatOfVal (pyOr0 (dictGetD data (fkey age) (.int 0)))
    let m := male_val * scale
    let f := female_val * scale
    pure (acc.1 ++ [(age ++ "대", pyRound1 (m + f))], acc.2.1 + m, acc.2.2 + f))
    ([], 0, 0)

/-- Python `max(age_stats, key=age_stats.get)` — the first key attaining
the maximal value (strict improvement replaces). -/
def maxByVal : List (String × Rat) → String × Rat → String × Rat
  | [], best => best
  | kv :: rest, best => maxByVal rest (if kv.2 > best.2 then kv else best)

/-- First maximal entry of a nonempty association list. -/
def maxEntry : List (String × Rat) → String × Rat
  | [] => ("", 0)
  | kv :: rest => maxByVal rest kv

/-- Shared tail of the three demographics branches: empty / all-zero check,
dominant age bucket, gender comparison and summary strings. -/
def demoFinish (age_stats : List (String × Rat)) (male female : Rat) : PyVal :=
  if age_stats.isEmpty || age_stats.all (fun kv => kv.2 = 0) then emptyDemo
  else
    let best := maxEntry age_stats
    let max_age := best.1
    let max_age_pct := best.2
    let male_pct := pyRound1 male
    let female_pct := pyRound1 female
    let gender_summary :=
      if female_pct > male_pct then
        "여성 " ++ floatStr female_pct ++ "% > 남성 " ++ floatStr male_pct ++ "%"
      else
        "남성 " ++ floatStr male_pct ++ "% > 여성 " ++ floatStr female_pct ++ "%"
    let summary :=
      "주요 방문층: " ++ max_age ++ " (" ++ floatStr max_age_pct ++ "%). " ++ gender_summary
    .dict [("has_data", .bool true),
           ("age_distribution", .dict (age_stats.map (fun kv => (kv.1, .float kv.2)))),
           ("gender_distribution", .dict [("남성", .float male_pct), ("여성", .float female_pct)]),
           ("summary", .str summary)]

/-- LG U+ branch (`m_20`, `f_20`, ... columns; absolute values). -/
def lgBranch (data : List (String × PyVal)) : Except String PyVal := do
  let r ← demoAccum data (fun age => "m_" ++ age) (fun age => "f_" ++ age) 1
  pure (demoFinish r.1 r.2.1 r.2.2)

/-- 삼성카드 branch (`mrcno_pct_<age>_male` / `_female`; fractions × 100). -/
def samsungBranch (data : List (String × PyVal)) : Except String PyVal := do
  let r ← demoAccum data (fun age => "mrcno_pct_" ++ age ++ "_male")
    (fun age => "mrcno_pct_" ++ age ++ "_female") 100
  pure (demoFinish r.1 r.2.1 r.2.2)

/-- 페르소나 branch (`persona_pct_<age>_male` / `_female`; fractions × 100). -/
def personaBranch (data : List (String × PyVal)) : Except String PyVal := do
  let r ← demoAccum data (fun age => "persona_pct_" ++ age ++ "_male")
    (fun age => "persona_pct_" ++ age ++ "_female") 100
  pure (demoFinish r.1 r.2.1 r.2.2)

/-- `query_executor._calculate_demographics_stats`: inspect only the first
record; try the three column-naming conventions in fixed priority order
(`m_20`, then `mrcno_pct_20_male`, then `persona_pct_20_male`), stopping at
the first whose signature column is present; none matching (or an empty
input) yields a `has_data: False` result. -/
def _calculate_demographics_stats (demographics : List (List (String × PyVal))) :
    Except String PyVal :=
  match demographics with
  | [] => .ok noDemoData
  | data :: _ =>
    if dictHas data "m_20" then lgBranch data
    else if dictHas data "mrcno_pct_20_male" then samsungBranch data
    else if dictHas data "persona_pct_20_male" then personaBranch data
    else .ok unrecognizedDemo

/-- One entry of the `queries` argument of `execute_data_queries`: a Python
dict whose fields are all read with `.get` and a default, so each is
optional here. -/
structure QuerySpec where
  action : Option String
  table : Option String
  params : Option (List (String × PyVal))
  save_as : Option String

/-- The database backend as seen by the query loop: the
`DBQueryTool.query` / `get_aggregated_statistics` calls and `json.loads`,
indexed by the step number so that per-step behaviour (including raising)
can be described.  `Except.error` models a raised exception. -/
structure DBEnv where
  queryCall : Nat → String → List (String × PyVal) → Except String PyVal
  aggCall : Nat → String → List (String × PyVal) → Except String PyVal
  jsonLoads : Nat → String → Except String PyVal

/-- The body of the `try:` block for one step of `execute_data_queries`:
resolve the params against the context built so far, then dispatch on the
action.  `search`, `filter` and `aggregate` call the backend; any other
action yields the `Unknown action` error row (without raising). -/
def runStep (env : DBEnv) (i : Nat) (query : QuerySpec)
    (results : List (String × PyVal)) : Except String PyVal :=
  let action := query.action.getD "search"
  let table := query.table.getD ""
  let params := query.params.getD []
  let resolved_params := _resolve_params params results
  if action = "search" then
    env.queryCall i table
      [("search_column", dictGetD resolved_params "search_column" PyVal.none),
       ("search_value", dictGetD resolved_params "search_value" PyVal.none),
       ("limit", dictGetD resolved_params "limit" (.int 10))]
  else if action = "filter" then
    let filters0 := dictGetD resolved_params "filters" (.dict [])
    match filters0 with
    | .str s => do
      let filters ← env.jsonLoads i s
      env.queryCall i table
        [("filters", filters), ("limit", dictGetD resolved_params "limit" (.int 50))]
    | f =>
      env.queryCall i table
        [("filters", f), ("limit", dictGetD resolved_params "limit" (.int 50))]
  else if action = "aggregate" then
    env.aggCall i table
      [("group_by", dictGetD resolved_params "group_by" PyVal.none),
       ("aggregate_column", dictGetD resolved_params "aggregate_column" PyVal.none),
       ("aggregate_function", dictGetD resolved_params "aggregate_function" (.str "count")),
       ("filters", dictGetD resolved_params "filters" PyVal.none)]
  else
    .ok (.list [.dict [("error", .str ("Unknown action: " ++ action))]])

/-- The run-level state of `execute_data_queries`: the `results` context
dict and the `errors` list. -/
structure ExecState where
  results : List (String × PyVal)
  errors : List String

/-- The `for i, query in enumerate(queries)` loop of
`execute_data_queries`: on success store the data under the effective
`save_as` key; on an exception store an empty list there and append the
error message; either way continue with the next step. -/
def runQueriesFrom (env : DBEnv) : Nat → List QuerySpec → ExecState → ExecState
  | _, [], st => st
  | i, query :: rest, st =>
    let save_as := query.save_as.getD ("result_" ++ toString i)
    match runStep env i query st.results with
    | .ok data =>
      runQueriesFrom env (i + 1) rest
        { results := dictSet st.results save_as data, errors := st.errors }
    | .error e =>
      let error_msg := query.table.getD "" ++ " 조회 오류: " ++ e
      runQueriesFrom env (i + 1) rest
        { results := dictSet st.results save_as (.list []),
          errors := st.errors ++ [error_msg] }

/-- `query_executor.execute_data_queries`, restricted to its query loop
(the stats phase and the response summary that follow read this state but
do not change it): run all steps starting from an empty context. -/
def execute_data_queries (env : DBEnv) (queries : List QuerySpec) : ExecState :=
  runQueriesFrom env 0 queries ⟨[], []⟩

/-- The effective storage key of step `i` (`query.get("save_as",
f"result_{i}")`). -/
def effSaveAs (i : Nat) (q : QuerySpec) : String :=
  q.save_as.getD ("result_" ++ toString i)

/-- Effective storage keys of a plan, step by step. -/
def effKeysFrom : Nat → List QuerySpec → List String
  | _, [] => []
  | i, q :: rest => effSaveAs i q :: effKeysFrom (i + 1) rest

/-- What the loop stores for a step with the given outcome: the data on
success, the empty list on a raised exception. -/
def storedOf : Except String PyVal → PyVal
  | .ok d => d
  | .error _ => .list []

/-- A backend whose calls at step `i` all produce `outcomes i` — the shape
used to state per-step failure hypotheses. -/
def constEnv (outcomes : Nat → Except String PyVal) : DBEnv :=
  { queryCall := fun i _ _ => outcomes i
    aggCall := fun i _ _ => outcomes i
    jsonLoads := fun i _ => outcomes i }

/-- The error messages the loop appends for a plan whose step `i` body has
outcome `outcomes i`. -/
def errsOf (outcomes : Nat → Except String PyVal) : Nat → List QuerySpec → List String
  | _, [] => []
  | i, q :: rest =>
    (match outcomes i with
     | .ok _ => []
     | .error e => [q.table.getD "" ++ " 조회 오류: " ++ e]) ++ errsOf outcomes (i + 1) rest

/-- An action string the loop dispatches to the backend. -/
def goodAction (q : QuerySpec) : Prop :=
  q.action.getD "search" = "search" ∨ q.action.getD "search" = "filter"
    ∨ q.action.getD "search" = "aggregate"

end QueryExecutor

/-- Character class of the body of a `$ref` reference:
`[a-zA-Z0-9_.]` (note that it includes the dot). -/
def refCls (c : Char) : Bool :=
  identCont c || c = '.'

/-- The `re.sub(r'\$ref\.([a-zA-Z_][a-zA-Z0-9_.]*)', repl, s)` scan shared
by the two bundle loaders, parameterised by the replacement for a captured
body.  At a `$` the literal `ref.` and an identifier-start character must
follow; the body is then the maximal run of `[a-zA-Z0-9_.]` characters
(maximal munch equals the regex since nothing follows the group in the
pattern).  On no match the character is copied and scanning resumes at the
next position, exactly as `re.sub` does.  Fuel bounds the scan; the input
length suffices. -/
def subRefScan (repl : String → List Char) : Nat → List Char → List Char
  | 0, cs => cs
  | fuel + 1, cs =>
    match cs with
    | [] => []
    | c :: rest =>
      if c = '$' then
        match rest with
        | 'r' :: 'e' :: 'f' :: '.' :: d :: rest2 =>
          if identStart d then
            let body := d :: rest2.takeWhile refCls
            let rest3 := rest2.dropWhile refCls
            repl (String.mk body) ++ subRefScan repl fuel rest3
          else c :: subRefScan repl fuel rest
        | _ => c :: subRefScan repl fuel rest
      else c :: subRefScan repl fuel rest

/-- Generic `d[key] = v` on an association list (replace in place or
append). -/
def assocSet {α : Type} : List (String × α) → String → α → List (String × α)
  | [], key, v => [(key, v)]
  | (k, w) :: kvs, key, v =>
    if k = key then (k, v) :: kvs else (k, w) :: assocSet kvs key v

/-- Generic first-match association lookup. -/
def assocGet {α : Type} : List (String × α) → String → Option α
  | [], _ => Option.none
  | (k, v) :: kvs, key => if k = key then some v else assocGet kvs key

namespace ApiBundleLoader

/-- The dotted-path walk of `api_bundle_loader._substitute_vars`'s
`replace_ref`: step through dicts with `val.get(part, "")`; a non-dict
midway returns the empty string immediately, modelled as `Option.none`. -/
def apiRefWalkVal : PyVal → List String → Option PyVal
  | v, [] => some v
  | v, part :: parts =>
    match v with
    | .dict kvs => apiRefWalkVal (dictGetD kvs part (.str "")) parts
    | _ => Option.none

/-- `replace_ref` on already-split path segments: the walked value rendered
with `str`, or the empty string when the walk dead-ends or the value is
falsy.  A missing path therefore yields `""`, not the original literal. -/
def replace_ref_parts (context : List (String × PyVal)) (parts : List String) : String :=
  match apiRefWalkVal (.dict context) parts with
  | some v => if pyTruthy v then pyStr v else ""
  | Option.none => ""

/-- `replace_ref`: split the captured path on dots and walk it. -/
def replace_ref (context : List (String × PyVal)) (path : String) : String :=
  replace_ref_parts context ((splitOnDot path.data).map String.mk)

/-- The numeric-coercion tail of `api_bundle_loader._substitute_vars`: if
the string with all dots and minus signs removed is a nonempty digit
string, try `float` (when a dot is present) or `int`, keeping the string
when Python's parse raises `ValueError`. -/
def apiCoerce (result : String) : PyVal :=
  if pyIsdigit (String.mk (result.data.filter (fun c => c ≠ '.' && c ≠ '-'))) then
    if result.data.contains '.' then
      match pyFloatParse result with
      | some q => .float q
      | Option.none => .str result
    else
      match pyIntParse result with
      | some n => .int n
      | Option.none => .str result
  else .str result

/-- The string case of `api_bundle_loader._substitute_vars`: simple
variable replacement, `$ref` substitution, then numeric coercion. -/
def substituteStr (s : String) (context : List (String × PyVal)) : PyVal :=
  let r1 := pyReplace s "$org" (pyStr (dictGetD context "org" (.str "")))
  let r2 := pyReplace r1 "$lat" (pyStr (dictGetD context "lat" (.str "")))
  let r3 := pyReplace r2 "$lng" (pyStr (dictGetD context "lng" (.str "")))
  let r4 := pyReplace r3 "$address" (pyStr (dictGetD context "address" (.str "")))
  let result := String.mk
    (subRefScan (fun p => (replace_ref context p).data) r4.data.length r4.data)
  apiCoerce result

mutual

/-- `api_bundle_loader._substitute_vars`: substitute `$org`, `$lat`,
`$lng`, `$address` and `$ref.key.field` in strings (with numeric
coercion afterwards), recursing into dicts and lists. -/
def _substitute_vars (value : PyVal) (context : List (String × PyVal)) : PyVal :=
  match value with
  | .str s => substituteStr s context
  | .dict kvs => .dict (subVarsKVs kvs context)
  | .list xs => .list (subVarsList xs context)
  | v => v

/-- Dict recursion of `_substitute_vars`. -/
def subVarsKVs (kvs : List (String × PyVal)) (context : List (String × PyVal)) :
    List (String × PyVal) :=
  match kvs with
  | [] => []
  | (k, v) :: rest => (k, _substitute_vars v context) :: subVarsKVs rest context

/-- List recursion of `_substitute_vars`. -/
def subVarsList (xs : List PyVal) (context : List (String × PyVal)) : List PyVal :=
  match xs with
  | [] => []
  | v :: rest => _substitute_vars v context :: subVarsList rest context

end

end ApiBundleLoader

namespace QueryBundleLoader

/-- The `$ref.x.y → {x.y}` rewriting used by
`query_bundle_loader._substitute_vars` (the executor later resolves the
braced form). -/
def braceRepl (body : String) : List Char :=
  lbrace :: body.data ++ [rbrace]

mutual

/-- `query_bundle_loader._substitute_vars`: replace `$org` by the
organisation name and rewrite `$ref.x.y` to the executor's braced
reference form, recursing into dicts and lists. -/
def _substitute_vars (value : PyVal) (org_name : String) : PyVal :=
  match value with
  | .str s =>
    let result := pyReplace s "$org" org_name
    .str (String.mk (subRefScan braceRepl result.data.length result.data))
  | .dict kvs => .dict (subVarsKVs kvs org_name)
  | .list xs => .list (subVarsList xs org_name)
  | v => v

/-- Dict recursion of `_substitute_vars`. -/
def subVarsKVs (kvs : List (String × PyVal)) (org_name : String) :
    List (String × PyVal) :=
  match kvs with
  | [] => []
  | (k, v) :: rest => (k, _substitute_vars v org_name) :: subVarsKVs rest org_name

/-- List recursion of `_substitute_vars`. -/
def subVarsList (xs : List PyVal) (org_name : String) : List PyVal :=
  match xs with
  | [] => []
  | v :: rest => _substitute_vars v org_name :: subVarsList rest org_name

end

/-- `query_bundle_loader._parse_query_array`: turn an array-form query into
the executor's dict form; malformed arrays yield the empty (falsy) dict. -/
def _parse_query_array (arr : List PyVal) (org_name : String) : PyVal :=
  if arr.length < 3 then .dict []
  else
    let action := arr.getD 0 PyVal.none
    let table := arr.getD 1 PyVal.none
    let save_as := arr.getLastD PyVal.none
    match action with
    | .str "search" =>
      if arr.length ≠ 5 then .dict []
      else
        let column := arr.getD 2 PyVal.none
        let value := _substitute_vars (arr.getD 3 PyVal.none) org_name
        .dict [("action", .str "search"), ("table", table),
               ("params", .dict [("search_column", column), ("search_value", value)]),
               ("save_as", save_as)]
    | .str "filter" =>
      if arr.length ≠ 5 then .dict []
      else
        let filters := _substitute_vars (arr.getD 2 PyVal.none) org_name
        let limit := match arr.getD 3 PyVal.none with
          | .int n => PyVal.int n
          | _ => PyVal.int 50
        .dict [("action", .str "filter"), ("table", table),
               ("params", .dict [("filters", filters), ("limit", limit)]),
               ("save_as", save_as)]
    | .str "aggregate" =>
      .dict [("action", .str "aggregate"), ("table", table),
             ("params", _substitute_vars (arr.getD 2 PyVal.none) org_name),
             ("save_as", save_as)]
    | _ => .dict []

/-- One bundle of `query_bundles.json`, with the fields `resolve_bundles`
reads (each read via `.get` with `[]`/the empty dict as default, so absent
keys are the empty list here; `purpose`/`description` keep their
optionality because their default is the other field). -/
structure Bundle where
  requires : List String
  queries : List (List PyVal)
  stats : List String
  block : List (String × PyVal)
  purpose : Option PyVal
  description : Option PyVal

/-- `config["bundles"].get(name)`. -/
def lookupBundle : List (String × Bundle) → String → Option Bundle
  | [], _ => Option.none
  | (k, b) :: rest, name => if k = name then some b else lookupBundle rest name

/-- The parsed queries a bundle contributes (`_parse_query_array` over its
query arrays, keeping the truthy results). -/
def parsedQueries (b : Bundle) (org_name : String) : List PyVal :=
  (b.queries.map (fun arr => _parse_query_array arr org_name)).filter pyTruthy

/-- The queries bundle `name` contributes to a resolution (empty when the
name is not in the configuration). -/
def bundleQueries (cfg : List (String × Bundle)) (org_name : String) (name : String) :
    List PyVal :=
  match lookupBundle cfg name with
  | some b => parsedQueries b org_name
  | Option.none => []

/-- The `for stat in bundle.get("stats", [])` loop: append each stat not
already present. -/
def addStats (all_stats : List String) (stats : List String) : List String :=
  stats.foldl (fun acc stat => if stat ∈ acc then acc else acc ++ [stat]) all_stats

/-- The block config stored for a bundle: a truthy `block` dict gets a
`purpose` key (`bundle.get("purpose", bundle.get("description", ""))`);
an empty one is stored as is. -/
def mkBlockConfig (b : Bundle) : List (String × PyVal) :=
  if pyTruthy (.dict b.block) then
    assocSet b.block "purpose" (b.purpose.getD (b.description.getD (.str "")))
  else b.block

/-- The mutable state of `resolve_bundles`: the accumulated queries, stats
and block configs, and the set of loaded bundles.  The Python `set` is
modelled as the list of bundle names in loading order — the code only
tests membership, and the order carries the ordering facts the claims are
about. -/
structure RState where
  all_queries : List PyVal
  all_stats : List String
  block_configs : List (String × List (String × PyVal))
  loaded_bundles : List String

/-- The part of `_load_bundle` after the dependency loop: parse and append
the bundle's queries, merge its stats, store its block config, and mark it
loaded. -/
def bundleStep (org_name name : String) (bundle : Bundle) (st : RState) : RState :=
  { all_queries := st.all_queries ++ parsedQueries bundle org_name
    all_stats := addStats st.all_stats bundle.stats
    block_configs := assocSet st.block_configs name (mkBlockConfig bundle)
    loaded_bundles := st.loaded_bundles ++ [name] }

/-- `query_bundle_loader._load_bundle`: skip an already-loaded or missing
bundle; otherwise first recursively load every `requires` dependency, then
append the bundle's own contribution and mark it loaded.  The Python
function recurses without any fuel; one unit of fuel here is one stack
frame, so `Option.none` (for every fuel) is exactly a Python run that
never returns. -/
def _load_bundle (cfg : List (String × Bundle)) (org_name : String) :
    Nat → String → RState → Option RState
  | 0, _, _ => Option.none
  | fuel + 1, name, st =>
    if name ∈ st.loaded_bundles then some st
    else match lookupBundle cfg name with
      | Option.none => some st
      | some bundle =>
        match bundle.requires.foldl (fun acc dep =>
            match acc with
            | some st2 => _load_bundle cfg org_name fuel dep st2
            | Option.none => Option.none) (some st) with
        | some st1 => some (bundleStep org_name name bundle st1)
        | Option.none => Option.none

/-- Sequential loading of a list of bundle names (the dependency loop of
`_load_bundle` at the callee fuel, and also the top-level
`for bundle_name in bundle_names` loop of `resolve_bundles`). -/
def loadList (cfg : List (String × Bundle)) (org_name : String) (fuel : Nat) :
    List String → RState → Option RState
  | [], st => some st
  | dep :: deps, st =>
    match _load_bundle cfg org_name fuel dep st with
    | some st2 => loadList cfg org_name fuel deps st2
    | Option.none => Option.none

/-- `query_bundle_loader.resolve_bundles`: load every requested bundle into
an empty state and return `(all_queries, stats_to_calculate,
block_configs)`.  `Option.none` models a run that never returns (stack
overflow on a cyclic configuration). -/
def resolve_bundles (cfg : List (String × Bundle)) (org_name : String) (fuel : Nat)
    (bundle_names : List String) :
    Option (List PyVal × List String × List (String × List (String × PyVal))) :=
  (loadList cfg org_name fuel bundle_names ⟨[], [], [], []⟩).map
    (fun st => (st.all_queries, st.all_stats, st.block_configs))

/-- `a` occurs strictly before (some occurrence of) `b` in `l`. -/
def before {α : Type} (l : List α) (a b : α) : Prop :=
  ∃ u v, l = u ++ b :: v ∧ a ∈ u

/-- A path through `requires` edges all of whose nodes avoid the set `S`
(used to bound which bundles a dependency walk can newly load). -/
inductive UPath (cfg : List (String × Bundle)) (S : List String) : String → String → Prop where
  | refl (a : String) (ha : a ∉ S) : UPath cfg S a a
  | step (a b c : String) (ha : a ∉ S) (bd : Bundle)
      (hl : lookupBundle cfg a = some bd) (hm : b ∈ bd.requires)
      (h : UPath cfg S b c) : UPath cfg S a c

/-- A nonempty witness of a `requires` cycle: a set of bundle names each of
which exists and has a `requires` edge back into the set. -/
def CycleSet (cfg : List (String × Bundle)) (C : List String) : Prop :=
  ∀ c ∈ C, ∃ bd, lookupBundle cfg c = some bd ∧ ∃ d, d ∈ C ∧ d ∈ bd.requires

/-- Bundle resolution terminates on the given request when some finite
stack depth lets every `_load_bundle` call return. -/
def terminatesOn (cfg : List (String × Bundle)) (org_name : String)
    (bundle_names : List String) : Prop :=
  ∃ fuel, (resolve_bundles cfg org_name fuel bundle_names).isSome

/-- All of bundle `A`'s contributed queries precede all of bundle `B`'s in
`qs`: the list splits into whole per-bundle segments with `A`'s (single)
segment before `B`'s, and neither bundle contributing anywhere else. -/
def queriesSeparated (Q : String → List PyVal) (qs : List PyVal) (A B : String) : Prop :=
  ∃ u1 u2 u3 : List String,
    qs = (u1.flatMap Q) ++ Q A ++ (u2.flatMap Q) ++ Q B ++ (u3.flatMap Q)
    ∧ A ∉ u1 ∧ A ∉ u2 ∧ A ∉ u3 ∧ B ∉ u1 ∧ B ∉ u2 ∧ B ∉ u3

end QueryBundleLoader

/-- Is the value a Python number (int or float)? -/
def isNumberVal : PyVal → Bool
  | .int _ => true
  | .float _ => true
  | _ => false

/-! ### Concrete inputs used by witnesses and counterexamples -/

namespace Examples

open QueryExecutor QueryBundleLoader

/-- A doughnut chart block. -/
def doughnutBlock : PyVal :=
  .dict [("type", .str "chart"), ("chartType", .str "doughnut"), ("id", .str "block_1")]

/-- A pie chart block. -/
def pieBlock : PyVal :=
  .dict [("type", .str "chart"), ("chartType", .str "pie"), ("id", .str "block_2")]

/-- A second pie chart block. -/
def pieBlock2 : PyVal :=
  .dict [("type", .str "chart"), ("chartType", .str "pie"), ("id", .str "block_3")]

/-- A markdown block. -/
def markdownBlock : PyVal :=
  .dict [("type", .str "markdown"), ("content", .str "overview")]

/-- A `range_filter` query as the tool docstring documents it. -/
def rangeFilterQuery : QuerySpec :=
  { action := some "range_filter"
    table := some "sns_meta_monthly"
    params := some [("column", .str "cri_ym"), ("min_value", .int 202401),
                    ("max_value", .int 202412)]
    save_as := some "monthly" }

/-- A plain search step storing under key `x`. -/
def searchStepX : QuerySpec :=
  { action := some "search", table := some "sns_buzz_master_tbl"
    params := some [("search_column", .str "slta_nm"), ("search_value", .str "예술의전당")]
    save_as := some "x" }

/-- A second search step also storing under key `x` (duplicate save key). -/
def searchStepX2 : QuerySpec :=
  { action := some "search", table := some "persona_metrics"
    params := some [("search_column", .str "slta_nm"), ("search_value", .str "예술의전당")]
    save_as := some "x" }

/-- A second search step storing under its own key `y`. -/
def searchStepY : QuerySpec :=
  { action := some "search", table := some "persona_metrics"
    params := some [("search_column", .str "slta_nm"), ("search_value", .str "예술의전당")]
    save_as := some "y" }

/-- A row of data some successful step returns. -/
def rowData : PyVal := .list [.dict [("slta_cd", .str "SLTA062")]]

/-- Backend outcomes: step 0 raises, every other step succeeds. -/
def failAt0 : Nat → Except String PyVal :=
  fun i => if i = 0 then .error "boom" else .ok rowData

/-- A dependency-free bundle named `A`. -/
def bundleA : Bundle :=
  { requires := []
    queries := [[.str "search", .str "sns_buzz_master_tbl", .str "slta_nm",
                 .str "$org", .str "facility"]]
    stats := ["review"]
    block := [("type", .str "bar")]
    purpose := some (.str "리뷰 분석")
    description := Option.none }

/-- A bundle named `B` that requires `A`. -/
def bundleB : Bundle :=
  { requires := ["A"]
    queries := [[.str "filter", .str "persona_metrics",
                 .dict [("slta_cd", .str "$ref.facility.slta_cd")], .int 12, .str "persona"]]
    stats := ["demographics"]
    block := [("type", .str "doughnut")]
    purpose := Option.none
    description := some (.str "인구통계") }

/-- Configuration with just the independent bundle `A`. -/
def cfgA : List (String × Bundle) := [("A", bundleA)]

/-- Configuration where `B` requires `A`. -/
def cfgAB : List (String × Bundle) := [("A", bundleA), ("B", bundleB)]

/-- A bundle that requires `B` (half of a two-cycle). -/
def bundleCycA : Bundle :=
  { requires := ["B"], queries := [], stats := [], block := []
    purpose := Option.none, description := Option.none }

/-- A bundle that requires `A` (other half of the two-cycle). -/
def bundleCycB : Bundle :=
  { requires := ["A"], queries := [], stats := [], block := []
    purpose := Option.none, description := Option.none }

/-- A configuration whose `requires` relation is the two-cycle `A ↔ B`. -/
def cycCfg : List (String × Bundle) := [("A", bundleCycA), ("B", bundleCycB)]

/-- A rank function witnessing that `cfgAB` is acyclic. -/
def rankAB (name : String) : Nat := if name = "B" then 1 else 0

/-- The resolution of `["B"]` against `cfgAB` (computed; used to state the
closed dependency-ordering witness). -/
def resAB : Option (List PyVal × List String × List (String × List (String × PyVal))) :=
  resolve_bundles cfgAB "예술의전당" 3 ["B"]

/-- The tuple `resAB` carries. -/
def outAB : List PyVal × List String × List (String × List (String × PyVal)) :=
  resAB.getD ([], [], [])

end Examples

/-! ## Theorems -/

namespace ComposeAgent

theorem flattenOne_mkRowFallback (b1 b2 : PyVal) :
    flattenOne (mkRowFallback b1 b2) = [b1, b2] := rfl

theorem flattenOne_mkContainer (t g : PyVal) (cs : List PyVal) :
    flattenOne (mkContainer t g cs) = cs := rfl

theorem isDoughnutCur_mkRowFallback (b1 b2 : PyVal) :
    isDoughnutCur (mkRowFallback b1 b2) = false := rfl

theorem isDoughnutNext_mkRowFallback (b1 b2 : PyVal) :
    isDoughnutNext (mkRowFallback b1 b2) = false := rfl

theorem flattenBlocks_nil : flattenBlocks [] = [] := rfl

theorem flattenBlocks_cons (b : PyVal) (bs : List PyVal) :
    flattenBlocks (b :: bs) = flattenOne b ++ flattenBlocks bs := rfl

theorem flatten_flat : ∀ (l : List PyVal), (∀ b ∈ l, flatBlock b) → flattenBlocks l = l := by
  intro l h
  induction l with
  | nil => rfl
  | cons b bs ih =>
    rw [flattenBlocks_cons, h b (List.mem_cons_self _ _), ih (fun x hx => h x (List.mem_cons_of_mem _ hx))]
    rfl

theorem fallback_coverage : ∀ (l : List PyVal), (∀ b ∈ l, flatBlock b) →
    flattenBlocks (_fallback_layout l) = l := by
  intro l
  induction l using _fallback_layout.induct with
  | case1 => intro _; rfl
  | case2 b =>
    intro h
    have hb := h b (List.mem_cons_self _ _)
    rw [show _fallback_layout [b] = [b] from rfl, flattenBlocks_cons, hb, flattenBlocks_nil]
    rfl
  | case3 b b2 rest hg ih =>
    intro h
    rw [_fallback_layout, if_pos hg, flattenBlocks_cons, flattenOne_mkRowFallback,
      ih (fun x hx => h x (List.mem_cons_of_mem _ (List.mem_cons_of_mem _ hx)))]
    rfl
  | case4 b b2 rest hg ih =>
    intro h
    rw [_fallback_layout, if_neg hg, flattenBlocks_cons,
      h b (List.mem_cons_self _ _),
      ih (fun x hx => h x (List.mem_cons_of_mem _ hx))]
    rfl

theorem fallback_slots : ∀ (l : List PyVal), ∀ x ∈ _fallback_layout l,
    x ∈ l ∨ ∃ b1 b2, x = mkRowFallback b1 b2 ∧ isDoughnutCur b1 = true
      ∧ isDoughnutNext b2 = true ∧ [b1, b2] <:+: l := by
  intro l
  induction l using _fallback_layout.induct with
  | case1 => intro x hx; cases hx
  | case2 b => intro x hx; left; exact hx
  | case3 b b2 rest hg ih =>
    intro x hx
    rw [_fallback_layout, if_pos hg] at hx
    rcases List.mem_cons.mp hx with hx | hx
    · right
      refine ⟨b, b2, hx, ?_, ?_, ⟨[], rest, rfl⟩⟩
      · exact (Bool.and_eq_true _ _ ▸ hg).1
      · exact (Bool.and_eq_true _ _ ▸ hg).2
    · rcases ih x hx with h | ⟨b1', b2', hx', h1, h2, hinf⟩
      · exact Or.inl (List.mem_cons_of_mem _ (List.mem_cons_of_mem _ h))
      · exact Or.inr ⟨b1', b2', hx', h1, h2, hinf.trans ⟨[b, b2], [], by simp⟩⟩
  | case4 b b2 rest hg ih =>
    intro x hx
    rw [_fallback_layout, if_neg hg] at hx
    rcases List.mem_cons.mp hx with hx | hx
    · left; rw [hx]; exact List.mem_cons_self _ _
    · rcases ih x hx with h | ⟨b1', b2', hx', h1, h2, hinf⟩
      · exact Or.inl (List.mem_cons_of_mem _ h)
      · exact Or.inr ⟨b1', b2', hx', h1, h2, hinf.trans ⟨[b], [], by simp⟩⟩

theorem fallback_head_shape (b2 : PyVal) (rest : List PyVal) :
    ∀ y t, _fallback_layout (b2 :: rest) = y :: t →
      y = b2 ∨ ∃ b3, y = mkRowFallback b2 b3 := by
  intro y t h
  match rest with
  | [] => rw [_fallback_layout] at h; exact Or.inl (List.cons.injEq .. ▸ h).1.symm
  | b3 :: rest3 =>
    rw [_fallback_layout] at h
    by_cases hg : (isDoughnutCur b2 && isDoughnutNext b3) = true
    · rw [if_pos hg] at h
      exact Or.inr ⟨b3, (List.cons.injEq .. ▸ h).1.symm⟩
    · rw [if_neg hg] at h
      exact Or.inl (List.cons.injEq .. ▸ h).1.symm

theorem noMergeableAdjacent_cons (x : PyVal) (ys : List PyVal)
    (hys : noMergeableAdjacent ys = true)
    (hhead : ∀ y t, ys = y :: t → (isDoughnutCur x && isDoughnutNext y) = false) :
    noMergeableAdjacent (x :: ys) = true := by
  match ys with
  | [] => rfl
  | y :: t =>
    rw [noMergeableAdjacent, Bool.and_eq_true]
    exact ⟨by rw [hhead y t rfl]; rfl, hys⟩

theorem fallback_greedy : ∀ (l : List PyVal),
    noMergeableAdjacent (_fallback_layout l) = true := by
  intro l
  induction l using _fallback_layout.induct with
  | case1 => rfl
  | case2 b => rfl
  | case3 b b2 rest hg ih =>
    rw [_fallback_layout, if_pos hg]
    refine noMergeableAdjacent_cons _ _ ih ?_
    intro y t _
    rw [isDoughnutCur_mkRowFallback]
    rfl
  | case4 b b2 rest hg ih =>
    rw [_fallback_layout, if_neg hg]
    refine noMergeableAdjacent_cons _ _ ih ?_
    intro y t h
    rcases fallback_head_shape b2 rest y t h with rfl | ⟨b3, rfl⟩
    · exact Bool.eq_false_iff.mpr hg
    · rw [isDoughnutNext_mkRowFallback, Bool.and_false]

theorem selectBlock_mem (drafts : List PyVal) (idx : PyVal) (b : PyVal)
    (h : selectBlock drafts idx = some b) : b ∈ drafts := by
  cases idx <;> simp only [selectBlock] at h <;> try cases h
  case int n =>
    split at h
    · cases h; exact List.get_mem ..
    · cases h

theorem applySeqGo_flatten (drafts : List PyVal) (hflat : ∀ b ∈ drafts, flatBlock b) :
    ∀ seq, flattenBlocks (applySeqGo drafts seq) = seq.flatMap (itemBlocks drafts) := by
  intro seq
  induction seq with
  | nil => rfl
  | cons item rest ih =>
    cases item with
    | int n =>
      rw [List.flatMap_cons]
      cases h : selectBlock drafts (.int n) with
      | none => simp only [applySeqGo, h, itemBlocks, Option.toList]; rw [ih]; rfl
      | some b =>
        simp only [applySeqGo, h, itemBlocks, Option.toList]
        rw [flattenBlocks_cons, hflat b (selectBlock_mem _ _ _ h), ih]
    | dict kvs =>
      rw [List.flatMap_cons]
      simp only [applySeqGo, itemBlocks]
      by_cases hemp :
          ((match dictGetD kvs "indices" (.list []) with
            | .list xs => xs
            | _ => []).filterMap (selectBlock drafts)).isEmpty
      · rw [if_neg (by simp [hemp]), ih, List.isEmpty_iff.mp hemp]
        rfl
      · rw [if_pos (by simp [hemp]), flattenBlocks_cons, flattenOne_mkContainer, ih]
    | none => simp only [applySeqGo, itemBlocks]; rw [ih]; rfl
    | bool b => simp only [applySeqGo, itemBlocks]; rw [ih]; rfl
    | float q => simp only [applySeqGo, itemBlocks]; rw [ih]; rfl
    | str s => simp only [applySeqGo, itemBlocks]; rw [ih]; rfl
    | list xs => simp only [applySeqGo, itemBlocks]; rw [ih]; rfl

theorem filterMap_int_select (drafts : List PyVal) :
    ∀ xs : List PyVal, xs.filterMap (selectBlock drafts)
      = (xs.filterMap (fun idx => match idx with
          | PyVal.int n => some n
          | _ => Option.none)).filterMap (fun n => selectBlock drafts (.int n)) := by
  intro xs
  induction xs with
  | nil => rfl
  | cons x rest ih =>
    cases x <;> simp only [List.filterMap_cons] <;>
      simp only [selectBlock, ih, List.filterMap_cons]

theorem gather_flatMap (drafts : List PyVal) :
    ∀ seq, seq.flatMap (itemBlocks drafts)
      = (gatherIndices seq).filterMap (fun n => selectBlock drafts (.int n)) := by
  intro seq
  induction seq with
  | nil => rfl
  | cons item rest ih =>
    cases item with
    | int n =>
      rw [List.flatMap_cons, gatherIndices, List.filterMap_cons, ih]
      cases h : selectBlock drafts (.int n) <;> simp [itemBlocks, h, Option.toList]
    | dict kvs =>
      rw [List.flatMap_cons, gatherIndices, List.filterMap_append, ih]
      congr 1
      cases hdg : dictGetD kvs "indices" (.list []) <;>
        simp only [itemBlocks, hdg] <;>
        first
        | rfl
        | exact filterMap_int_select drafts _
    | none =>
      rw [List.flatMap_cons,
        show gatherIndices (PyVal.none :: rest) = gatherIndices rest from rfl, ih]
      rfl
    | bool b =>
      rw [List.flatMap_cons,
        show gatherIndices (PyVal.bool b :: rest) = gatherIndices rest from rfl, ih]
      rfl
    | float q =>
      rw [List.flatMap_cons,
        show gatherIndices (PyVal.float q :: rest) = gatherIndices rest from rfl, ih]
      rfl
    | str s =>
      rw [List.flatMap_cons,
        show gatherIndices (PyVal.str s :: rest) = gatherIndices rest from rfl, ih]
      rfl
    | list xs =>
      rw [List.flatMap_cons,
        show gatherIndices (PyVal.list xs :: rest) = gatherIndices rest from rfl, ih]
      rfl

theorem range_take (drafts : List PyVal) :
    ∀ k, k ≤ drafts.length →
      (List.range k).filterMap (fun i => selectBlock drafts (.int (Int.ofNat i)))
        = drafts.take k := by
  intro k
  induction k with
  | zero => intro _; rfl
  | succ j ih =>
    intro hk
    have hj : j < drafts.length := hk
    have hsel : selectBlock drafts (.int (Int.ofNat j)) = some (drafts.get ⟨j, hj⟩) := by
      rw [selectBlock]
      rw [dif_pos (by constructor <;> simp [hj])]
      simp
    rw [List.range_succ, List.filterMap_append, ih (Nat.le_of_succ_le hk)]
    rw [show List.filterMap (fun i => selectBlock drafts (PyVal.int (Int.ofNat i))) [j]
        = [drafts.get ⟨j, hj⟩] from by rw [List.filterMap_cons, hsel]; rfl]
    rw [List.take_succ, List.getElem?_eq_getElem hj]
    rfl

theorem gather_select_perm (drafts : List PyVal) (l : List Int)
    (hp : l.Perm ((List.range drafts.length).map (fun i => Int.ofNat i))) :
    (l.filterMap (fun n => selectBlock drafts (.int n))).Perm drafts := by
  have h2 := hp.filterMap (fun n => selectBlock drafts (.int n))
  rw [List.filterMap_map] at h2
  have h3 : ((List.range drafts.length).filterMap
      ((fun n => selectBlock drafts (.int n)) ∘ fun i => Int.ofNat i)) = drafts := by
    have h4 := range_take drafts drafts.length le_rfl
    rw [List.take_length] at h4
    exact h4
  rw [h3] at h2
  exact h2

end ComposeAgent

/-- C8 (amended): the rule-based fallback layout merges every two
*consecutive doughnut* charts (only doughnut — `pie` is not merged, see the
counterexample) into a single row containing exactly those two charts,
leaves all other blocks unwrapped in their original relative order, always
terminates (the embedding is a total structural recursion), and never drops
or duplicates a block: flattening the output returns exactly the input
list; every output slot is an original block or a row of two adjacent
doughnut charts; and no two adjacent output slots are both unwrapped
doughnut charts (greediness). -/
theorem c8_fallback_doughnut_merge (block_drafts : List PyVal)
    (hflat : ∀ b ∈ block_drafts, ComposeAgent.flatBlock b) :
    ComposeAgent.flattenBlocks (ComposeAgent._fallback_layout block_drafts) = block_drafts
    ∧ (∀ x ∈ ComposeAgent._fallback_layout block_drafts, x ∈ block_drafts
        ∨ ∃ b1 b2, x = ComposeAgent.mkRowFallback b1 b2
            ∧ ComposeAgent.isDoughnutCur b1 = true
            ∧ ComposeAgent.isDoughnutNext b2 = true ∧ [b1, b2] <:+: block_drafts)
    ∧ ComposeAgent.noMergeableAdjacent (ComposeAgent._fallback_layout block_drafts) = true :=
  ⟨ComposeAgent.fallback_coverage block_drafts hflat,
   ComposeAgent.fallback_slots block_drafts,
   ComposeAgent.fallback_greedy block_drafts⟩

/-- Witness for C8's amended theorem at a concrete flat block list. -/
theorem c8_fallback_doughnut_merge_witness :
    ComposeAgent.flattenBlocks (ComposeAgent._fallback_layout
        [Examples.doughnutBlock, Examples.doughnutBlock, Examples.markdownBlock])
      = [Examples.doughnutBlock, Examples.doughnutBlock, Examples.markdownBlock]
    ∧ ComposeAgent.noMergeableAdjacent (ComposeAgent._fallback_layout
        [Examples.doughnutBlock, Examples.doughnutBlock, Examples.markdownBlock]) = true := by
  have h := c8_fallback_doughnut_merge
    [Examples.doughnutBlock, Examples.doughnutBlock, Examples.markdownBlock]
    (by intro b hb
        rcases List.mem_cons.mp hb with rfl | hb
        · rfl
        rcases List.mem_cons.mp hb with rfl | hb
        · rfl
        rcases List.mem_cons.mp hb with rfl | hb
        · rfl
        · cases hb)
  exact ⟨h.1, h.2.2⟩

/-- C8 counterexample: two consecutive *pie* charts are not merged — the
fallback returns them unwrapped, not as the row the claim requires. -/
theorem c8_pie_not_merged :
    ComposeAgent._fallback_layout [Examples.pieBlock, Examples.pieBlock2]
      = [Examples.pieBlock, Examples.pieBlock2]
    ∧ ComposeAgent._fallback_layout [Examples.pieBlock, Examples.pieBlock2]
      ≠ [ComposeAgent.mkRowFallback Examples.pieBlock Examples.pieBlock2] := by
  refine ⟨rfl, ?_⟩
  intro h
  rw [show ComposeAgent._fallback_layout [Examples.pieBlock, Examples.pieBlock2]
      = [Examples.pieBlock, Examples.pieBlock2] from rfl] at h
  have := congrArg List.length h
  simp at this

/-- C3 (amended): for a flat block list, the composed output contains every
original block exactly once under both placement paths, *provided* the
externally supplied layout sequence references every block index exactly
once (the spec's own well-formedness invariant; without it blocks are
dropped or duplicated, see the counterexample).  The fallback path needs no
proviso. -/
theorem c3_coverage_both_paths (block_drafts layout_sequence : List PyVal)
    (hflat : ∀ b ∈ block_drafts, ComposeAgent.flatBlock b)
    (hcover : (ComposeAgent.gatherIndices layout_sequence).Perm
      ((List.range block_drafts.length).map (fun i => Int.ofNat i))) :
    (ComposeAgent.flattenBlocks
        (ComposeAgent._apply_layout_sequence block_drafts layout_sequence)).Perm block_drafts
    ∧ ComposeAgent.flattenBlocks (ComposeAgent._fallback_layout block_drafts)
      = block_drafts := by
  constructor
  · rw [ComposeAgent._apply_layout_sequence]
    by_cases hemp : layout_sequence.isEmpty
    · rw [if_pos hemp, ComposeAgent.flatten_flat block_drafts hflat]
    · rw [if_neg hemp, ComposeAgent.applySeqGo_flatten block_drafts hflat,
        ComposeAgent.gather_flatMap]
      exact ComposeAgent.gather_select_perm block_drafts _ hcover
  · exact ComposeAgent.fallback_coverage block_drafts hflat

/-- Witness for C3's amended theorem: a two-block list laid out by a single
row that references each block exactly once. -/
theorem c3_coverage_both_paths_witness :
    (ComposeAgent.flattenBlocks (ComposeAgent._apply_layout_sequence
        [Examples.doughnutBlock, Examples.markdownBlock]
        [.dict [("type", .str "row"),
                ("indices", .list [.int 1, .int 0]),
                ("gap", .str "20px")]])).Perm
      [Examples.doughnutBlock, Examples.markdownBlock] := by
  have h := c3_coverage_both_paths
    [Examples.doughnutBlock, Examples.markdownBlock]
    [.dict [("type", .str "row"),
            ("indices", .list [.int 1, .int 0]),
            ("gap", .str "20px")]]
    (by intro b hb
        rcases List.mem_cons.mp hb with rfl | hb
        · rfl
        rcases List.mem_cons.mp hb with rfl | hb
        · rfl
        · cases hb)
    (by show ([1, 0] : List Int).Perm _
        exact List.Perm.swap 0 1 [])
  exact h.1

/-- C3 counterexample: an externally supplied sequence that references index
0 twice duplicates the block — the flattened output is not a permutation of
the one-block input, so coverage fails without the exactly-once proviso. -/
theorem c3_duplicate_index_counterexample :
    ComposeAgent.flattenBlocks (ComposeAgent._apply_layout_sequence
        [Examples.markdownBlock] [.int 0, .int 0])
      = [Examples.markdownBlock, Examples.markdownBlock]
    ∧ ¬ ([Examples.markdownBlock, Examples.markdownBlock].Perm
          [Examples.markdownBlock]) := by
  refine ⟨rfl, ?_⟩
  intro h
  have := h.length_eq
  simp at this

/-- C7: the executor's dispatch has no `range_filter` branch, although the
tool docstring documents one (and `DBQueryTool.query` exposes the inclusive
`range_start <= column <= range_end` condition it would need): a
`range_filter` step falls into the `Unknown action` arm for *every*
backend, storing an error row under its `save_as` key instead of running an
inclusive range query, and appending nothing to `errors`. -/
theorem c7_range_filter_unknown_action (env : QueryExecutor.DBEnv) :
    QueryExecutor.execute_data_queries env [Examples.rangeFilterQuery]
      = ⟨[("monthly", .list [.dict [("error", .str "Unknown action: range_filter")]])],
         []⟩ := rfl

namespace QueryExecutor

theorem runStep_constEnv (outcomes : Nat → Except String PyVal) (i : Nat) (q : QuerySpec)
    (results : List (String × PyVal)) (hq : goodAction q) :
    runStep (constEnv outcomes) i q results = outcomes i := by
  rcases hq with h | h | h
  · simp [runStep, h, constEnv]
  · simp only [runStep, h, constEnv]
    rw [if_pos trivial]
    cases hf : dictGetD (_resolve_params (q.params.getD []) results) "filters" (.dict []) with
    | str s => cases ho : outcomes i <;> simp only [ho] <;> rfl
    | none => rfl
    | bool b => rfl
    | int n => rfl
    | float qq => rfl
    | list xs => rfl
    | dict kvs => rfl
  · simp [runStep, h, constEnv]

theorem dictGet_set_self (r : List (String × PyVal)) (k : String) (v : PyVal) :
    dictGet (dictSet r k v) k = some v := by
  induction r with
  | nil => simp [dictSet, dictGet]
  | cons kv rest ih =>
    by_cases h : kv.1 = k
    · simp [dictSet, h, dictGet]
    · simp [dictSet, h, dictGet, ih]

theorem dictGet_set_ne (r : List (String × PyVal)) (k key : String) (v : PyVal)
    (h : k ≠ key) : dictGet (dictSet r k v) key = dictGet r key := by
  induction r with
  | nil => simp [dictSet, dictGet, h]
  | cons kv rest ih =>
    by_cases h2 : kv.1 = k
    · simp [dictSet, h2, dictGet, h]
    · simp only [dictSet, h2, if_false]
      rw [dictGet, dictGet, ih]

theorem run_untouched (env : DBEnv) :
    ∀ (qs : List QuerySpec) (i : Nat) (st : ExecState) (key : String),
      key ∉ effKeysFrom i qs →
      dictGet (runQueriesFrom env i qs st).results key = dictGet st.results key := by
  intro qs
  induction qs with
  | nil => intro i st key _; rfl
  | cons q rest ih =>
    intro i st key hk
    rw [effKeysFrom] at hk
    have hk1 : key ≠ effSaveAs i q := fun hc => hk (hc ▸ List.mem_cons_self _ _)
    have hk2 : key ∉ effKeysFrom (i + 1) rest := fun hc => hk (List.mem_cons_of_mem _ hc)
    rw [runQueriesFrom]
    cases runStep env i q st.results with
    | ok data => rw [ih (i + 1) _ key hk2]; exact dictGet_set_ne _ _ _ _ (fun hc => hk1 hc.symm)
    | error e => rw [ih (i + 1) _ key hk2]; exact dictGet_set_ne _ _ _ _ (fun hc => hk1 hc.symm)

theorem run_characterization (outcomes : Nat → Except String PyVal) :
    ∀ (qs : List QuerySpec) (i : Nat) (st : ExecState),
      (∀ q ∈ qs, goodAction q) →
      (effKeysFrom i qs).Nodup →
      (runQueriesFrom (constEnv outcomes) i qs st).errors
          = st.errors ++ errsOf outcomes i qs
      ∧ ∀ j (hj : j < qs.length),
          dictGet (runQueriesFrom (constEnv outcomes) i qs st).results
              (effSaveAs (i + j) (qs.get ⟨j, hj⟩))
            = some (storedOf (outcomes (i + j))) := by
  intro qs
  induction qs with
  | nil =>
    intro i st _ _
    refine ⟨by simp [runQueriesFrom, errsOf], ?_⟩
    intro j hj
    cases hj
  | cons q rest ih =>
    intro i st hact hnd
    have hstep := runStep_constEnv outcomes i q st.results (hact q (List.mem_cons_self _ _))
    have hact2 : ∀ q2 ∈ rest, goodAction q2 := fun q2 hq2 => hact q2 (List.mem_cons_of_mem _ hq2)
    have hnd2 : (effKeysFrom (i + 1) rest).Nodup := by
      rw [effKeysFrom] at hnd
      exact (List.nodup_cons.mp hnd).2
    have hhead : effSaveAs i q ∉ effKeysFrom (i + 1) rest := by
      rw [effKeysFrom] at hnd
      exact (List.nodup_cons.mp hnd).1
    rw [runQueriesFrom, hstep]
    cases ho : outcomes i with
    | ok data =>
      dsimp only
      rw [show q.save_as.getD ("result_" ++ toString i) = effSaveAs i q from rfl]
      obtain ⟨ih1, ih2⟩ := ih (i + 1)
        { results := dictSet st.results (effSaveAs i q) data, errors := st.errors } hact2 hnd2
      constructor
      · rw [ih1]
        have h5 : errsOf outcomes i (q :: rest) = errsOf outcomes (i + 1) rest := by
          rw [errsOf, ho]
          simp
        rw [h5]
      · intro j hj
        cases j with
        | zero =>
          rw [show (i + 0) = i from rfl]
          rw [show ((q :: rest).get ⟨0, hj⟩) = q from rfl]
          rw [run_untouched (constEnv outcomes) rest (i + 1) _ _ hhead]
          rw [dictGet_set_self, ho]
          rfl
        | succ j2 =>
          have hj2 : j2 < rest.length := Nat.lt_of_succ_lt_succ hj
          have h6 := ih2 j2 hj2
          rw [show (i + 1 + j2) = (i + (j2 + 1)) from by omega] at h6
          rw [show ((q :: rest).get ⟨j2 + 1, hj⟩) = rest.get ⟨j2, hj2⟩ from rfl]
          exact h6
    | error e =>
      dsimp only
      rw [show q.save_as.getD ("result_" ++ toString i) = effSaveAs i q from rfl]
      obtain ⟨ih1, ih2⟩ := ih (i + 1)
        { results := dictSet st.results (effSaveAs i q) (.list []),
          errors := st.errors ++ [q.table.getD "" ++ " 조회 오류: " ++ e] } hact2 hnd2
      constructor
      · rw [ih1]
        have h5 : errsOf outcomes i (q :: rest)
            = [q.table.getD "" ++ " 조회 오류: " ++ e] ++ errsOf outcomes (i + 1) rest := by
          rw [errsOf, ho]
        rw [h5, List.append_assoc]
        
      · intro j hj
        cases j with
        | zero =>
          rw [show (i + 0) = i from rfl]
          rw [show ((q :: rest).get ⟨0, hj⟩) = q from rfl]
          rw [run_untouched (constEnv outcomes) rest (i + 1) _ _ hhead]
          rw [dictGet_set_self, ho]
          rfl
        | succ j2 =>
          have hj2 : j2 < rest.length := Nat.lt_of_succ_lt_succ hj
          have h6 := ih2 j2 hj2
          rw [show (i + 1 + j2) = (i + (j2 + 1)) from by omega] at h6
          rw [show ((q :: rest).get ⟨j2 + 1, hj⟩) = rest.get ⟨j2, hj2⟩ from rfl]
          exact h6

theorem errsOf_single (outcomes : Nat → Except String PyVal) (i0 : Nat) (emsg : String)
    (herr : outcomes i0 = .error emsg)
    (hok : ∀ j, j ≠ i0 → ∃ d, outcomes j = .ok d) :
    ∀ (qs : List QuerySpec) (i : Nat),
      (errsOf outcomes i qs).length = if i ≤ i0 ∧ i0 < i + qs.length then 1 else 0 := by
  intro qs
  induction qs with
  | nil =>
    intro i
    simp only [errsOf, List.length_nil, Nat.add_zero]
    rw [if_neg (by omega)]
  | cons q rest ih =>
    intro i
    by_cases h : i = i0
    · subst h
      have h5 : errsOf outcomes i (q :: rest)
          = [q.table.getD "" ++ " 조회 오류: " ++ emsg] ++ errsOf outcomes (i + 1) rest := by
        rw [errsOf, herr]
      have hrest : (errsOf outcomes (i + 1) rest).length = 0 := by
        rw [ih (i + 1), if_neg (by omega)]
      rw [h5, List.length_append, hrest,
        if_pos (by refine ⟨le_refl _, ?_⟩; simp only [List.length_cons]; omega)]
      rfl
    · obtain ⟨d, hd⟩ := hok i h
      have h5 : errsOf outcomes i (q :: rest) = errsOf outcomes (i + 1) rest := by
        rw [errsOf, hd]
        simp
      rw [h5, ih (i + 1)]
      simp only [List.length_cons]
      split_ifs with h1 h2 h2 <;> first | rfl | omega

end QueryExecutor

/-- C2 (amended): for an `n`-step plan *whose effective `save_as` keys are
pairwise distinct* (without that proviso a later step overwrites the failed
step's empty result, see the counterexample) and whose backend raises on
exactly one step `i0`, the query loop appends exactly one entry to
`errors`, stores an empty result under step `i0`'s key, stores every other
step's own result under its own key (in particular every step after `i0`
still executes), and no exception aborts the run. -/
theorem c2_failure_isolation (outcomes : Nat → Except String PyVal)
    (queries : List QueryExecutor.QuerySpec) (i0 : Nat) (emsg : String)
    (hact : ∀ q ∈ queries, QueryExecutor.goodAction q)
    (hkeys : (QueryExecutor.effKeysFrom 0 queries).Nodup)
    (hi0 : i0 < queries.length)
    (herr : outcomes i0 = .error emsg)
    (hok : ∀ j, j ≠ i0 → ∃ d, outcomes j = .ok d) :
    (QueryExecutor.execute_data_queries (QueryExecutor.constEnv outcomes) queries).errors.length = 1
    ∧ dictGet (QueryExecutor.execute_data_queries (QueryExecutor.constEnv outcomes) queries).results
        (QueryExecutor.effSaveAs i0 (queries.get ⟨i0, hi0⟩)) = some (.list [])
    ∧ ∀ j (hj : j < queries.length), ∀ d, outcomes j = .ok d →
        dictGet (QueryExecutor.execute_data_queries (QueryExecutor.constEnv outcomes) queries).results
          (QueryExecutor.effSaveAs j (queries.get ⟨j, hj⟩)) = some d := by
  obtain ⟨h1, h2⟩ := QueryExecutor.run_characterization outcomes queries 0 ⟨[], []⟩ hact hkeys
  refine ⟨?_, ?_, ?_⟩
  · rw [QueryExecutor.execute_data_queries, h1]
    rw [List.nil_append, QueryExecutor.errsOf_single outcomes i0 emsg herr hok queries 0,
      if_pos (by constructor <;> omega)]
  · have := h2 i0 hi0
    rw [Nat.zero_add] at this
    rw [QueryExecutor.execute_data_queries, this, herr]
    rfl
  · intro j hj d hd
    have := h2 j hj
    rw [Nat.zero_add] at this
    rw [QueryExecutor.execute_data_queries, this, hd]
    rfl

/-- Witness for C2's amended theorem: a two-step plan with distinct keys
`x`, `y`, failing on step 0. -/
theorem c2_failure_isolation_witness :
    (QueryExecutor.execute_data_queries (QueryExecutor.constEnv Examples.failAt0)
        [Examples.searchStepX, Examples.searchStepY]).errors.length = 1
    ∧ dictGet (QueryExecutor.execute_data_queries (QueryExecutor.constEnv Examples.failAt0)
        [Examples.searchStepX, Examples.searchStepY]).results "x" = some (.list [])
    ∧ dictGet (QueryExecutor.execute_data_queries (QueryExecutor.constEnv Examples.failAt0)
        [Examples.searchStepX, Examples.searchStepY]).results "y" = some Examples.rowData := by
  have h := c2_failure_isolation Examples.failAt0
    [Examples.searchStepX, Examples.searchStepY] 0 "boom"
    (by intro q hq
        rcases List.mem_cons.mp hq with rfl | hq
        · exact Or.inl rfl
        rcases List.mem_cons.mp hq with rfl | hq
        · exact Or.inl rfl
        · cases hq)
    (by decide)
    (by decide)
    rfl
    (by intro j hj
        exact ⟨Examples.rowData, by simp [Examples.failAt0, hj]⟩)
  exact ⟨h.1, h.2.1, h.2.2 1 (by decide) Examples.rowData (by simp [Examples.failAt0])⟩

/-- C10: `_calculate_demographics_stats` inspects only the first record —
its result does not depend on the remaining records — and tries exactly the
three column-naming conventions in the fixed priority order `m_20` (LG U+),
then `mrcno_pct_20_male` (삼성카드), then `persona_pct_20_male` (페르소나),
stopping at the first whose signature column is present in the first
record; an empty input or an unrecognised first record yields a
`has_data: False` "no usable data" result without raising (the embedding
returns `Except.ok`, never `Except.error`, in those cases). -/
theorem c10_demographics_detection (r : List (String × PyVal))
    (rest rest2 : List (List (String × PyVal))) :
    QueryExecutor._calculate_demographics_stats [] = .ok QueryExecutor.noDemoData
    ∧ QueryExecutor._calculate_demographics_stats (r :: rest)
        = QueryExecutor._calculate_demographics_stats (r :: rest2)
    ∧ (dictHas r "m_20" = false → dictHas r "mrcno_pct_20_male" = false →
        dictHas r "persona_pct_20_male" = false →
        QueryExecutor._calculate_demographics_stats (r :: rest)
          = .ok QueryExecutor.unrecognizedDemo)
    ∧ (dictHas r "m_20" = true →
        QueryExecutor._calculate_demographics_stats (r :: rest) = QueryExecutor.lgBranch r)
    ∧ (dictHas r "m_20" = false → dictHas r "mrcno_pct_20_male" = true →
        QueryExecutor._calculate_demographics_stats (r :: rest)
          = QueryExecutor.samsungBranch r)
    ∧ (dictHas r "m_20" = false → dictHas r "mrcno_pct_20_male" = false →
        dictHas r "persona_pct_20_male" = true →
        QueryExecutor._calculate_demographics_stats (r :: rest)
          = QueryExecutor.personaBranch r) := by
  refine ⟨rfl, rfl, ?_, ?_, ?_, ?_⟩
  · intro h1 h2 h3
    simp [QueryExecutor._calculate_demographics_stats, h1, h2, h3]
  · intro h1
    simp [QueryExecutor._calculate_demographics_stats, h1]
  · intro h1 h2
    simp [QueryExecutor._calculate_demographics_stats, h1, h2]
  · intro h1 h2 h3
    simp [QueryExecutor._calculate_demographics_stats, h1, h2, h3]

/-- Witness for C10 at concrete records: an unrecognised record yields the
`has_data: False` result, and a record carrying `m_20` is handled by the
LG U+ branch even though a 삼성카드 column is also present. -/
theorem c10_demographics_detection_witness :
    QueryExecutor._calculate_demographics_stats [[("foo", PyVal.int 1)]]
      = .ok QueryExecutor.unrecognizedDemo
    ∧ QueryExecutor._calculate_demographics_stats
        [[("m_20", PyVal.int 10), ("mrcno_pct_20_male", PyVal.int 1)]]
      = QueryExecutor.lgBranch [("m_20", PyVal.int 10), ("mrcno_pct_20_male", PyVal.int 1)] := by
  constructor
  · exact (c10_demographics_detection [("foo", .int 1)] [] []).2.2.1 rfl rfl rfl
  · exact (c10_demographics_detection
      [("m_20", PyVal.int 10), ("mrcno_pct_20_male", PyVal.int 1)] [] []).2.2.2.1 rfl

/-- C9 (amended): after substitution, `query_executor._resolve_params`
coerces a string parameter to a number exactly when the *whole* resolved
string is a nonempty digit string (Python `str.isdigit` — so no decimal
point and no minus sign: `"3.5"` stays a string, see the counterexample),
and the coercion consumes the whole string; the api-bundle loader's
coercion accepts decimal forms (`"3.5"` to a float, `"-3"` to an int) but
never coerces a string containing any character other than digits, dots
and minus signs — a numeric-looking substring is never partially
coerced in either function. -/
theorem c9_whole_string_numeric_coercion (context : List (String × PyVal)) (s : String) :
    (pyIsdigit (String.mk (QueryExecutor.resolveRefCore context s.data.length s.data)) = true →
      QueryExecutor.resolveParamVal (.str s) context
        = .int ((digitsToNat (QueryExecutor.resolveRefCore context s.data.length s.data) : Int)))
    ∧ (pyIsdigit (String.mk (QueryExecutor.resolveRefCore context s.data.length s.data)) = false →
      QueryExecutor.resolveParamVal (.str s) context
        = .str (String.mk (QueryExecutor.resolveRefCore context s.data.length s.data)))
    ∧ (∀ t : String, (∃ c ∈ t.data, (c.isDigit || c = '.' || c = '-') = false) →
        ApiBundleLoader.apiCoerce t = .str t)
    ∧ ApiBundleLoader.apiCoerce "3.5" = .float (7 / 2)
    ∧ ApiBundleLoader.apiCoerce "-3" = .int (-3) := by
  refine ⟨?_, ?_, ?_, ?_, ?_⟩
  · intro h
    simp only [QueryExecutor.resolveParamVal]
    rw [if_pos h]
  · intro h
    simp only [QueryExecutor.resolveParamVal]
    rw [if_neg (by simp only [h]; simp)]
  · intro t ⟨c, hc, hcp⟩
    rw [ApiBundleLoader.apiCoerce, if_neg ?_]
    intro hdig
    obtain ⟨hd, hdot, hminus⟩ : c.isDigit = false ∧ ¬c = '.' ∧ ¬c = '-' := by
      rcases Bool.or_eq_false_iff.mp hcp with ⟨h1, h2⟩
      rcases Bool.or_eq_false_iff.mp h1 with ⟨h3, h4⟩
      refine ⟨h3, ?_, ?_⟩
      · intro hc2; rw [hc2] at h4; simp at h4
      · intro hc2; rw [hc2] at h2; simp at h2
    have hmem : c ∈ t.data.filter (fun c => c ≠ '.' && c ≠ '-') :=
      List.mem_filter.mpr ⟨hc, by simp [hdot, hminus]⟩
    have hall := (Bool.and_eq_true _ _ ▸ hdig).2
    have := List.all_eq_true.mp hall c hmem
    rw [hd] at this
    cases this
  · have h1 : ApiBundleLoader.apiCoerce "3.5"
        = .float ((digitsToNat ['3'] : Rat)
            + (digitsToNat ['5'] : Rat) / ((10 : Rat) ^ (['5'] : List Char).length)) := rfl
    rw [h1, show digitsToNat ['3'] = 3 from by decide,
      show digitsToNat ['5'] = 5 from by decide,
      show (['5'] : List Char).length = 1 from rfl]
    congr 1
    norm_num
  · have h1 : ApiBundleLoader.apiCoerce "-3" = .int (-((digitsToNat ['3'] : Nat) : Int)) := rfl
    rw [h1, show digitsToNat ['3'] = 3 from by decide]
    congr 1

/-- Witness for C9: `"42"` is coerced to the whole-string integer by the
executor; `"3.5"` is coerced by the api loader; a string with a
numeric-looking substring (`"id-99x"`) is left untouched. -/
theorem c9_whole_string_numeric_coercion_witness :
    QueryExecutor.resolveParamVal (.str "42") [] = .int 42
    ∧ ApiBundleLoader.apiCoerce "3.5" = .float (7 / 2)
    ∧ ApiBundleLoader.apiCoerce "id-99x" = .str "id-99x" := by
  have h := c9_whole_string_numeric_coercion [] "42"
  refine ⟨(h.1 rfl).trans rfl, h.2.2.2.1, ?_⟩
  exact (c9_whole_string_numeric_coercion [] "x").2.2.1 "id-99x" ⟨'i', by decide, by decide⟩

namespace QueryExecutor

theorem parseSegs_sound : ∀ (fuel : Nat) (cs : List Char) (segs : List String) (r : List Char),
    parseSegs fuel cs = some (segs, r) →
    segs ≠ [] ∧ cs = joinDots segs ++ rbrace :: r := by
  intro fuel
  induction fuel with
  | zero => intro cs segs r h; cases h
  | succ f ih =>
    intro cs segs r h
    cases cs with
    | nil => cases h
    | cons c rest =>
      rw [parseSegs] at h
      dsimp only at h
      by_cases hident : identStart c
      case neg => rw [if_neg hident] at h; cases h
      rw [if_pos hident] at h
      cases hrest1 : rest.dropWhile identCont with
      | nil => rw [hrest1] at h; cases h
      | cons d rest2 =>
        rw [hrest1] at h
        dsimp only at h
        have hsplit0 : rest = rest.takeWhile identCont ++ (d :: rest2) := by
          conv_lhs => rw [← List.takeWhile_append_dropWhile (p := identCont) (l := rest)]
          rw [hrest1]
        by_cases hd : d = '.'
        · rw [if_pos hd] at h
          cases hps : parseSegs f rest2 with
          | none => rw [hps] at h; cases h
          | some pr =>
            obtain ⟨segs2, r2⟩ := pr
            rw [hps] at h
            have h2 := Option.some.inj h
            have hA : segs = String.mk (c :: rest.takeWhile identCont) :: segs2 :=
              (congrArg Prod.fst h2).symm
            have hB : r = r2 := (congrArg Prod.snd h2).symm
            obtain ⟨hne2, heq2⟩ := ih rest2 segs2 r2 hps
            subst hA hB hd
            refine ⟨by simp, ?_⟩
            have hjd : joinDots (String.mk (c :: rest.takeWhile identCont) :: segs2)
                = (c :: rest.takeWhile identCont) ++ '.' :: joinDots segs2 := by
              cases segs2 with
              | nil => cases hne2 rfl
              | cons s2 ss2 => rfl
            rw [hjd]
            rw [congrArg (fun l => c :: l) hsplit0]
            rw [heq2]
            simp
        · rw [if_neg hd] at h
          by_cases hbr : d = rbrace
          · rw [if_pos hbr] at h
            have h2 := Option.some.inj h
            have hA : segs = [String.mk (c :: rest.takeWhile identCont)] :=
              (congrArg Prod.fst h2).symm
            have hB : r = rest2 := (congrArg Prod.snd h2).symm
            subst hA hB hbr
            refine ⟨by simp, ?_⟩
            rw [show joinDots [String.mk (c :: rest.takeWhile identCont)]
                = c :: rest.takeWhile identCont from rfl]
            rw [congrArg (fun l => c :: l) hsplit0]
            simp
          · rw [if_neg hbr] at h; cases h

theorem parseSegs_len (fuel : Nat) (cs : List Char) (segs : List String) (r : List Char)
    (h : parseSegs fuel cs = some (segs, r)) : r.length < cs.length := by
  obtain ⟨_, heq⟩ := parseSegs_sound fuel cs segs r h
  rw [heq]
  simp only [List.length_append, List.length_cons]
  omega

theorem refPaths_succ_brace (fuel : Nat) (c : Char) (rest : List Char) (hc : c = lbrace) :
    refPaths (fuel + 1) (c :: rest)
      = match parseSegs (rest.length + 1) rest with
        | some (segs, rest2) => segs :: refPaths fuel rest2
        | Option.none => refPaths fuel rest := by
  rw [refPaths, if_pos hc]

theorem refPaths_succ_other (fuel : Nat) (c : Char) (rest : List Char) (hc : ¬c = lbrace) :
    refPaths (fuel + 1) (c :: rest) = refPaths fuel rest := by
  rw [refPaths, if_neg hc]

theorem resolveRefCore_id (context : List (String × PyVal)) :
    ∀ (fuel : Nat) (cs : List Char), cs.length ≤ fuel →
      (∀ p ∈ refPaths fuel cs, walkPath context p = Option.none) →
      resolveRefCore context fuel cs = cs := by
  intro fuel
  induction fuel with
  | zero => intro cs _ _; rfl
  | succ f ih =>
    intro cs hlen hmiss
    cases cs with
    | nil => rfl
    | cons c rest =>
      have hlen2 : rest.length ≤ f := by
        simp only [List.length_cons] at hlen
        omega
      rw [resolveRefCore]
      by_cases hc : c = lbrace
      · rw [if_pos hc]
        cases hps : parseSegs (rest.length + 1) rest with
        | none =>
          dsimp only
          rw [ih rest hlen2 ?_]
          intro p hp
          refine hmiss p ?_
          rw [refPaths_succ_brace f c rest hc, hps]
          exact hp
        | some pr =>
          obtain ⟨segs, r2⟩ := pr
          obtain ⟨hne, heq⟩ := parseSegs_sound _ rest segs r2 hps
          have hw : walkPath context segs = Option.none := by
            refine hmiss segs ?_
            rw [refPaths_succ_brace f c rest hc, hps]
            exact List.mem_cons_self _ _
          dsimp only
          rw [hw]
          have hr2 : r2.length ≤ f := by
            have := parseSegs_len _ rest segs r2 hps
            omega
          rw [ih r2 hr2 ?_]
          · rw [refLiteral, hc, show rest = joinDots segs ++ rbrace :: r2 from heq]
            simp
          · intro p hp
            refine hmiss p ?_
            rw [refPaths_succ_brace f c rest hc, hps]
            exact List.mem_cons_of_mem _ hp
      · rw [if_neg hc, ih rest hlen2 ?_]
        intro p hp
        refine hmiss p ?_
        rw [refPaths_succ_other f c rest hc]
        exact hp

end QueryExecutor

/-- C4 (amended): in `query_executor._resolve_reference` a cross-step
reference whose key or any dotted-path segment is missing from the context
round-trips to its original literal text: a template all of whose
references have failing walks is returned entirely unchanged, and the
function is total (no exception).  In `api_bundle_loader._substitute_vars`,
however, a `$ref` path whose first key is missing is replaced by the
*empty string*, not the original literal (see the counterexample) — still
without raising. -/
theorem c4_missing_reference_fail_open (context : List (String × PyVal)) (s : String)
    (hmiss : ∀ p ∈ QueryExecutor.refPaths s.data.length s.data,
      QueryExecutor.walkPath context p = Option.none) :
    QueryExecutor._resolve_reference (.str s) context = .str s
    ∧ ∀ (ctx2 : List (String × PyVal)) (seg : String) (segs : List String),
        dictGet ctx2 seg = Option.none →
        ApiBundleLoader.replace_ref_parts ctx2 (seg :: segs) = "" := by
  constructor
  · show PyVal.str (String.mk (QueryExecutor.resolveRefCore context s.data.length s.data))
      = PyVal.str s
    rw [QueryExecutor.resolveRefCore_id context s.data.length s.data le_rfl hmiss]
  · intro ctx2 seg segs hget
    rw [ApiBundleLoader.replace_ref_parts]
    rw [show ApiBundleLoader.apiRefWalkVal (.dict ctx2) (seg :: segs)
        = ApiBundleLoader.apiRefWalkVal (dictGetD ctx2 seg (.str "")) segs from rfl]
    rw [dictGetD, hget]
    cases segs with
    | nil => rfl
    | cons s2 ss2 => rfl

/-- Witness for C4's amended theorem: a template with one missing reference
round-trips unchanged; a missing api `$ref` path becomes the empty
string. -/
theorem c4_missing_reference_fail_open_witness :
    QueryExecutor._resolve_reference (.str "a \x7bnope.key\x7d b")
        [("facility", .dict [("slta_cd", .str "SLTA062")])]
      = .str "a \x7bnope.key\x7d b"
    ∧ ApiBundleLoader.replace_ref_parts [("org", .str "X")] ["missing", "field"] = "" := by
  have h := c4_missing_reference_fail_open
    [("facility", .dict [("slta_cd", .str "SLTA062")])] "a \x7bnope.key\x7d b"
    (by intro p hp
        rw [show QueryExecutor.refPaths ("a \x7bnope.key\x7d b").data.length
              ("a \x7bnope.key\x7d b").data = [["nope", "key"]] from rfl] at hp
        rcases List.mem_cons.mp hp with rfl | hp
        · rfl
        · cases hp)
  exact ⟨h.1, h.2 [("org", .str "X")] "missing" ["field"] rfl⟩

/-- C4 counterexample: the api bundle loader substitutes the empty string —
not the original literal text — for a `$ref` reference whose key is missing
from the context. -/
theorem c4_api_missing_ref_empty :
    ApiBundleLoader._substitute_vars (.str "$ref.missing.key") [] = .str ""
    ∧ PyVal.str "" ≠ PyVal.str "$ref.missing.key" := by
  refine ⟨rfl, by simp⟩

/-- C9 counterexample: `"3.5"` is purely numeric with one decimal point,
yet `_resolve_params` leaves it as a string (its coercion test is
`str.isdigit`, which rejects the decimal point), contradicting the claim
for the executor path. -/
theorem c9_executor_decimal_not_coerced :
    QueryExecutor._resolve_params [("min_value", PyVal.str "3.5")] []
      = [("min_value", PyVal.str "3.5")]
    ∧ isNumberVal (PyVal.str "3.5") = false := ⟨rfl, rfl⟩

/-- C2 counterexample: with two steps sharing the `save_as` key `x` and the
backend raising on step 0 only, the run still records exactly one error,
but the failed step's "empty result" is overwritten — the final context
does not hold an empty result under step 0's key, contradicting the claim
for plans with duplicate keys. -/
theorem c2_duplicate_key_counterexample :
    (QueryExecutor.execute_data_queries (QueryExecutor.constEnv Examples.failAt0)
        [Examples.searchStepX, Examples.searchStepX2]).errors.length = 1
    ∧ dictGet (QueryExecutor.execute_data_queries (QueryExecutor.constEnv Examples.failAt0)
        [Examples.searchStepX, Examples.searchStepX2]).results "x"
      ≠ some (PyVal.list []) := by
  constructor
  · rfl
  · rw [show dictGet (QueryExecutor.execute_data_queries
        (QueryExecutor.constEnv Examples.failAt0)
        [Examples.searchStepX, Examples.searchStepX2]).results "x"
      = some Examples.rowData from rfl]
    simp [Examples.rowData]

namespace QueryBundleLoader

theorem foldl_load_none (cfg : List (String × Bundle)) (org : String) (fuel : Nat)
    (ds : List String) :
    ds.foldl (fun acc dep =>
      match acc with
      | some st2 => _load_bundle cfg org fuel dep st2
      | Option.none => Option.none) Option.none = Option.none := by
  induction ds with
  | nil => rfl
  | cons d ds ih => exact ih

theorem foldl_load_eq (cfg : List (String × Bundle)) (org : String) (fuel : Nat) :
    ∀ (ds : List String) (st : RState),
      ds.foldl (fun acc dep =>
        match acc with
        | some st2 => _load_bundle cfg org fuel dep st2
        | Option.none => Option.none) (some st) = loadList cfg org fuel ds st := by
  intro ds
  induction ds with
  | nil => intro st; rfl
  | cons d ds ih =>
    intro st
    rw [List.foldl_cons, loadList]
    show List.foldl _ (_load_bundle cfg org fuel d st) ds = _
    cases _load_bundle cfg org fuel d st with
    | some st2 => exact ih st2
    | none => exact foldl_load_none cfg org fuel ds

theorem load_succ (cfg : List (String × Bundle)) (org : String) (fuel : Nat)
    (name : String) (st : RState) :
    _load_bundle cfg org (fuel + 1) name st
      = if name ∈ st.loaded_bundles then some st
        else match lookupBundle cfg name with
          | Option.none => some st
          | some bundle =>
            match loadList cfg org fuel bundle.requires st with
            | some st1 => some (bundleStep org name bundle st1)
            | Option.none => Option.none := by
  rw [_load_bundle]
  by_cases h : name ∈ st.loaded_bundles
  · rw [if_pos h, if_pos h]
  · rw [if_neg h, if_neg h]
    cases lookupBundle cfg name with
    | none => rfl
    | some bundle =>
      dsimp only
      rw [foldl_load_eq]

theorem loadList_nil (cfg : List (String × Bundle)) (org : String) (fuel : Nat) (st : RState) :
    loadList cfg org fuel [] st = some st := rfl

theorem loadList_cons (cfg : List (String × Bundle)) (org : String) (fuel : Nat)
    (d : String) (ds : List String) (st : RState) :
    loadList cfg org fuel (d :: ds) st
      = match _load_bundle cfg org fuel d st with
        | some st2 => loadList cfg org fuel ds st2
        | Option.none => Option.none := rfl

theorem loadList_append (cfg : List (String × Bundle)) (org : String) (fuel : Nat) :
    ∀ (xs ys : List String) (st : RState),
      loadList cfg org fuel (xs ++ ys) st
        = match loadList cfg org fuel xs st with
          | some st2 => loadList cfg org fuel ys st2
          | Option.none => Option.none := by
  intro xs
  induction xs with
  | nil => intro ys st; rfl
  | cons x xs ih =>
    intro ys st
    rw [List.cons_append, loadList_cons, loadList_cons]
    cases _load_bundle cfg org fuel x st with
    | some st2 => exact ih ys st2
    | none => rfl

theorem load_self_mem (cfg : List (String × Bundle)) (org : String) (fuel : Nat)
    (name : String) (st st2 : RState)
    (h : _load_bundle cfg org fuel name st = some st2) :
    name ∈ st2.loaded_bundles ∨ (st2 = st ∧ lookupBundle cfg name = Option.none) := by
  cases fuel with
  | zero => cases h
  | succ f =>
    rw [load_succ] at h
    by_cases hm : name ∈ st.loaded_bundles
    · rw [if_pos hm] at h
      have h2 := Option.some.inj h
      subst h2
      exact Or.inl hm
    · rw [if_neg hm] at h
      cases hl : lookupBundle cfg name with
      | none =>
        rw [hl] at h
        exact Or.inr ⟨(Option.some.inj h).symm, rfl⟩
      | some bundle =>
        rw [hl] at h
        dsimp only at h
        cases hload : loadList cfg org f bundle.requires st with
        | none => rw [hload] at h; cases h
        | some st1 =>
          rw [hload] at h
          left
          rw [← Option.some.inj h]
          simp [bundleStep]

end QueryBundleLoader

/-- C5: resolving `[A, A]` yields exactly the same `(queries, stats,
block_configs)` tuple as resolving `[A]`: the second request is a no-op
because either `A` was marked loaded by the first pass or `A` is not in the
configuration at all (in which case both passes are no-ops).  The
no-dependents hypothesis of the claim is stated but not even needed. -/
theorem c5_idempotent_expansion (cfg : List (String × QueryBundleLoader.Bundle))
    (org : String) (fuel : Nat) (A : String)
    (hnodep : ∀ name b, QueryBundleLoader.lookupBundle cfg name = some b → A ∉ b.requires) :
    QueryBundleLoader.resolve_bundles cfg org fuel [A, A]
      = QueryBundleLoader.resolve_bundles cfg org fuel [A] := by
  rw [QueryBundleLoader.resolve_bundles, QueryBundleLoader.resolve_bundles]
  congr 1
  rw [QueryBundleLoader.loadList_cons, QueryBundleLoader.loadList_cons]
  cases h1 : QueryBundleLoader._load_bundle cfg org fuel A ⟨[], [], [], []⟩ with
  | none => rfl
  | some st1 =>
    dsimp only
    rw [QueryBundleLoader.loadList_cons]
    have h2 : QueryBundleLoader._load_bundle cfg org fuel A st1 = some st1 := by
      rcases QueryBundleLoader.load_self_mem cfg org fuel A _ st1 h1 with hmem | ⟨rfl, hnone⟩
      · cases fuel with
        | zero => cases h1
        | succ f => rw [QueryBundleLoader.load_succ, if_pos hmem]
      · cases fuel with
        | zero => cases h1
        | succ f =>
          rw [QueryBundleLoader.load_succ, if_neg (by simp), hnone]
    rw [h2]

/-- Witness for C5 at the concrete one-bundle configuration `cfgA`. -/
theorem c5_idempotent_expansion_witness :
    QueryBundleLoader.resolve_bundles Examples.cfgA "예술의전당" 3 ["A", "A"]
      = QueryBundleLoader.resolve_bundles Examples.cfgA "예술의전당" 3 ["A"] := by
  refine c5_idempotent_expansion Examples.cfgA "예술의전당" 3 "A" ?_
  intro name b hb
  by_cases h : ("A" : String) = name
  · rw [show QueryBundleLoader.lookupBundle Examples.cfgA name
        = if ("A" : String) = name then some Examples.bundleA else Option.none from rfl,
      if_pos h] at hb
    have := Option.some.inj hb
    subst this
    simp [Examples.bundleA]
  · rw [show QueryBundleLoader.lookupBundle Examples.cfgA name
        = if ("A" : String) = name then some Examples.bundleA else Option.none from rfl,
      if_neg h] at hb
    cases hb

namespace QueryBundleLoader

theorem cyc_load_none (org : String) :
    ∀ (fuel : Nat) (st : RState), "A" ∉ st.loaded_bundles → "B" ∉ st.loaded_bundles →
      _load_bundle Examples.cycCfg org fuel "A" st = Option.none
      ∧ _load_bundle Examples.cycCfg org fuel "B" st = Option.none := by
  intro fuel
  induction fuel with
  | zero => intro st _ _; exact ⟨rfl, rfl⟩
  | succ f ih =>
    intro st hA hB
    constructor
    · rw [load_succ, if_neg hA,
        show lookupBundle Examples.cycCfg "A" = some Examples.bundleCycA from rfl]
      dsimp only
      rw [show Examples.bundleCycA.requires = ["B"] from rfl, loadList_cons,
        (ih st hA hB).2]
    · rw [load_succ, if_neg hB,
        show lookupBundle Examples.cycCfg "B" = some Examples.bundleCycB from rfl]
      dsimp only
      rw [show Examples.bundleCycB.requires = ["A"] from rfl, loadList_cons,
        (ih st hA hB).1]

end QueryBundleLoader

/-- C6 counterexample: on the two-cycle configuration `A requires B`,
`B requires A`, the unguarded recursion of `_load_bundle` (the `loaded`
mark is only set *after* the dependency recursion) exhausts every finite
stack depth: no fuel makes the resolution of `["A"]` return, so the whole
resolution diverges instead of skipping the cyclic bundle. -/
theorem c6_cycle_diverges :
    ¬ QueryBundleLoader.terminatesOn Examples.cycCfg "기관" ["A"] := by
  rintro ⟨fuel, hf⟩
  rw [QueryBundleLoader.resolve_bundles, QueryBundleLoader.loadList_cons,
    (QueryBundleLoader.cyc_load_none "기관" fuel ⟨[], [], [], []⟩ (by simp) (by simp)).1] at hf
  cases hf

namespace QueryBundleLoader

theorem load_isSome_of_rank (cfg : List (String × Bundle)) (org : String)
    (rank : String → Nat)
    (hrank : ∀ name b, lookupBundle cfg name = some b → ∀ d ∈ b.requires, rank d < rank name) :
    ∀ (fuel : Nat) (name : String) (st : RState), rank name < fuel →
      (_load_bundle cfg org fuel name st).isSome := by
  intro fuel
  induction fuel with
  | zero => intro name st h; exact absurd h (Nat.not_lt_zero _)
  | succ f ih =>
    intro name st hr
    rw [load_succ]
    by_cases hm : name ∈ st.loaded_bundles
    · rw [if_pos hm]; rfl
    · rw [if_neg hm]
      cases hl : lookupBundle cfg name with
      | none => rfl
      | some bundle =>
        dsimp only
        have hdeps : ∀ d ∈ bundle.requires, rank d < f := by
          intro d hd
          have h2 := hrank name bundle hl d hd
          omega
        have hlist : ∀ (ds : List String), (∀ d ∈ ds, rank d < f) →
            ∀ st2, (loadList cfg org f ds st2).isSome := by
          intro ds
          induction ds with
          | nil => intro _ st2; rfl
          | cons d ds ih2 =>
            intro hds st2
            rw [loadList_cons]
            cases h2 : _load_bundle cfg org f d st2 with
            | none =>
              have h3 := ih d st2 (hds d (List.mem_cons_self _ _))
              rw [h2] at h3
              cases h3
            | some st3 =>
              exact ih2 (fun d2 hd2 => hds d2 (List.mem_cons_of_mem _ hd2)) st3
        cases h3 : loadList cfg org f bundle.requires st with
        | none =>
          have h4 := hlist bundle.requires hdeps st
          rw [h3] at h4
          cases h4
        | some st1 => rfl

end QueryBundleLoader

/-- C6 (amended): on every configuration whose declared `requires` relation
is acyclic — witnessed by a rank function strictly decreasing along
`requires` edges — bundle resolution terminates whenever the stack depth
exceeds the rank of each requested name; a requested name missing from the
configuration is skipped on its own.  (On a cyclic configuration the
recursion is unbounded and the whole resolution diverges, see the
counterexample.) -/
theorem c6_acyclic_terminates (cfg : List (String × QueryBundleLoader.Bundle))
    (org : String) (rank : String → Nat)
    (hrank : ∀ name b, QueryBundleLoader.lookupBundle cfg name = some b →
      ∀ d ∈ b.requires, rank d < rank name)
    (fuel : Nat) (names : List String) (hfuel : ∀ nm ∈ names, rank nm < fuel) :
    (QueryBundleLoader.resolve_bundles cfg org fuel names).isSome := by
  rw [QueryBundleLoader.resolve_bundles]
  have hlist : ∀ (ds : List String), (∀ d ∈ ds, rank d < fuel) →
      ∀ st, (QueryBundleLoader.loadList cfg org fuel ds st).isSome := by
    intro ds
    induction ds with
    | nil => intro _ st; rfl
    | cons d ds ih =>
      intro hds st
      rw [QueryBundleLoader.loadList_cons]
      cases h2 : QueryBundleLoader._load_bundle cfg org fuel d st with
      | none =>
        have h3 := QueryBundleLoader.load_isSome_of_rank cfg org rank hrank fuel d st
          (hds d (List.mem_cons_self _ _))
        rw [h2] at h3
        cases h3
      | some st3 =>
        exact ih (fun d2 hd2 => hds d2 (List.mem_cons_of_mem _ hd2)) st3
  have h4 := hlist names hfuel ⟨[], [], [], []⟩
  cases h : QueryBundleLoader.loadList cfg org fuel names ⟨[], [], [], []⟩ with
  | none => rw [h] at h4; cases h4
  | some st => rfl

/-- Witness for C6's amended theorem on the acyclic configuration `cfgAB`
(`B` requires `A`), requesting `["B", "A"]` with stack depth 2. -/
theorem c6_acyclic_terminates_witness :
    (QueryBundleLoader.resolve_bundles Examples.cfgAB "예술의전당" 2 ["B", "A"]).isSome := by
  refine c6_acyclic_terminates Examples.cfgAB "예술의전당" Examples.rankAB ?_ 2 ["B", "A"] ?_
  · intro name b hb d hd
    by_cases h : ("A" : String) = name
    · rw [show QueryBundleLoader.lookupBundle Examples.cfgAB name
          = if ("A" : String) = name then some Examples.bundleA
            else if ("B" : String) = name then some Examples.bundleB
            else Option.none from rfl, if_pos h] at hb
      have h2 := Option.some.inj hb
      subst h2
      simp [Examples.bundleA] at hd
    · by_cases h2 : ("B" : String) = name
      · rw [show QueryBundleLoader.lookupBundle Examples.cfgAB name
            = if ("A" : String) = name then some Examples.bundleA
              else if ("B" : String) = name then some Examples.bundleB
              else Option.none from rfl, if_neg h, if_pos h2] at hb
        have h3 := Option.some.inj hb
        subst h3
        rw [show Examples.bundleB.requires = ["A"] from rfl] at hd
        rcases List.mem_cons.mp hd with rfl | hd
        · rw [← h2]
          decide
        · cases hd
      · rw [show QueryBundleLoader.lookupBundle Examples.cfgAB name
            = if ("A" : String) = name then some Examples.bundleA
              else if ("B" : String) = name then some Examples.bundleB
              else Option.none from rfl, if_neg h, if_neg h2] at hb
        cases hb
  · intro nm hnm
    rcases List.mem_cons.mp hnm with rfl | hnm
    · decide
    rcases List.mem_cons.mp hnm with rfl | hnm
    · decide
    · cases hnm

namespace QueryBundleLoader

theorem loadList_pres (cfg : List (String × Bundle)) (org : String) (fuel : Nat)
    {P : RState → RState → Prop}
    (hrefl : ∀ st, P st st)
    (htrans : ∀ a b c, P a b → P b c → P a c)
    (hload : ∀ name st st', _load_bundle cfg org fuel name st = some st' → P st st') :
    ∀ (ds : List String) (st st' : RState),
      loadList cfg org fuel ds st = some st' → P st st' := by
  intro ds
  induction ds with
  | nil =>
    intro st st' h
    have h2 := Option.some.inj h
    subst h2
    exact hrefl st
  | cons d ds ih =>
    intro st st' h
    rw [loadList_cons] at h
    cases h2 : _load_bundle cfg org fuel d st with
    | none => rw [h2] at h; cases h
    | some st2 =>
      rw [h2] at h
      exact htrans _ _ _ (hload d st st2 h2) (ih st2 st' h)

theorem load_cases (cfg : List (String × Bundle)) (org : String) (fuel : Nat)
    (name : String) (st st' : RState)
    (h : _load_bundle cfg org fuel name st = some st') :
    (st' = st ∧ name ∈ st.loaded_bundles)
    ∨ (st' = st ∧ lookupBundle cfg name = Option.none)
    ∨ (∃ f bundle st1, fuel = f + 1 ∧ name ∉ st.loaded_bundles
        ∧ lookupBundle cfg name = some bundle
        ∧ loadList cfg org f bundle.requires st = some st1
        ∧ st' = bundleStep org name bundle st1) := by
  cases fuel with
  | zero => cases h
  | succ f =>
    rw [load_succ] at h
    by_cases hm : name ∈ st.loaded_bundles
    · rw [if_pos hm] at h
      exact Or.inl ⟨(Option.some.inj h).symm, hm⟩
    · rw [if_neg hm] at h
      cases hl : lookupBundle cfg name with
      | none =>
        rw [hl] at h
        exact Or.inr (Or.inl ⟨(Option.some.inj h).symm, rfl⟩)
      | some bundle =>
        rw [hl] at h
        dsimp only at h
        cases hload : loadList cfg org f bundle.requires st with
        | none => rw [hload] at h; cases h
        | some st1 =>
          rw [hload] at h
          exact Or.inr (Or.inr ⟨f, bundle, st1, rfl, hm, rfl, hload,
            (Option.some.inj h).symm⟩)

theorem load_pfx (cfg : List (String × Bundle)) (org : String) :
    ∀ (fuel : Nat) (name : String) (st st' : RState),
      _load_bundle cfg org fuel name st = some st' →
      st.loaded_bundles <+: st'.loaded_bundles := by
  intro fuel
  induction fuel with
  | zero => intro _ _ _ h; cases h
  | succ f ih =>
    intro name st st' h
    rcases load_cases cfg org (f + 1) name st st' h with
      ⟨rfl, _⟩ | ⟨rfl, _⟩ | ⟨f2, bundle, st1, hf2, hm, hl, hload, rfl⟩
    · exact List.prefix_refl _
    · exact List.prefix_refl _
    · have hff : f2 = f := by omega
      rw [hff] at hload
      have h1 : st.loaded_bundles <+: st1.loaded_bundles :=
        loadList_pres cfg org f (P := fun a b => a.loaded_bundles <+: b.loaded_bundles)
          (fun s => List.prefix_refl _) (fun _ _ _ hab hbc => hab.trans hbc) ih
          bundle.requires st st1 hload
      exact h1.trans ⟨[name], rfl⟩

theorem loadList_pfx (cfg : List (String × Bundle)) (org : String) (fuel : Nat)
    (ds : List String) (st st' : RState)
    (h : loadList cfg org fuel ds st = some st') :
    st.loaded_bundles <+: st'.loaded_bundles :=
  loadList_pres cfg org fuel (P := fun a b => a.loaded_bundles <+: b.loaded_bundles)
    (fun st => List.prefix_refl _) (fun a b c hab hbc => hab.trans hbc)
    (load_pfx cfg org fuel) ds st st' h

theorem load_complete (cfg : List (String × Bundle)) (org : String) (fuel : Nat)
    (name : String) (st st' : RState)
    (h : _load_bundle cfg org fuel name st = some st')
    (hl : (lookupBundle cfg name).isSome) : name ∈ st'.loaded_bundles := by
  rcases load_cases cfg org fuel name st st' h with
    ⟨rfl, hm⟩ | ⟨rfl, hnone⟩ | ⟨f, bundle, st1, _, _, _, _, rfl⟩
  · exact hm
  · rw [hnone] at hl; cases hl
  · simp [bundleStep]

theorem loadList_complete (cfg : List (String × Bundle)) (org : String) (fuel : Nat) :
    ∀ (ds : List String) (st st' : RState),
      loadList cfg org fuel ds st = some st' →
      ∀ d ∈ ds, (lookupBundle cfg d).isSome → d ∈ st'.loaded_bundles := by
  intro ds
  induction ds with
  | nil => intro st st' h d hd; cases hd
  | cons d0 ds ih =>
    intro st st' h d hd hsome
    rw [loadList_cons] at h
    cases h2 : _load_bundle cfg org fuel d0 st with
    | none => rw [h2] at h; cases h
    | some st2 =>
      rw [h2] at h
      rcases List.mem_cons.mp hd with rfl | hd
      · exact (loadList_pfx cfg org fuel ds st2 st' h).subset
          (load_complete cfg org fuel d st st2 h2 hsome)
      · exact ih st2 st' h d hd hsome

end QueryBundleLoader

namespace QueryBundleLoader

theorem UPath_anti (cfg : List (String × Bundle)) {S S' : List String}
    (hS : ∀ x ∈ S, x ∈ S') {a b : String} (h : UPath cfg S' a b) :
    UPath cfg S a b := by
  induction h with
  | refl a ha => exact UPath.refl a (fun hx => ha (hS a hx))
  | step a b c ha bd hl hm h ih =>
    exact UPath.step a b c (fun hx => ha (hS a hx)) bd hl hm ih

theorem upath_cycle (cfg : List (String × Bundle)) {S : List String} {a y : String}
    (h : UPath cfg S a y) :
    ∃ L : List String, a ∈ L ∧ y ∈ L ∧ (∀ c ∈ L, c ∉ S)
      ∧ ∀ c ∈ L, c ≠ y →
          ∃ bd, lookupBundle cfg c = some bd ∧ ∃ d2, d2 ∈ L ∧ d2 ∈ bd.requires := by
  induction h with
  | refl a ha =>
    refine ⟨[a], List.mem_singleton_self a, List.mem_singleton_self a, ?_, ?_⟩
    · intro c hc
      rw [List.mem_singleton] at hc
      subst hc
      exact ha
    · intro c hc hcy
      rw [List.mem_singleton] at hc
      exact absurd hc hcy
  | step a b c ha bd hl hm h ih =>
    obtain ⟨L, hbL, hyL, havoid, hedges⟩ := ih
    refine ⟨a :: L, List.mem_cons_self a L, List.mem_cons_of_mem a hyL, ?_, ?_⟩
    · intro x hx
      rcases List.mem_cons.mp hx with rfl | hx
      · exact ha
      · exact havoid x hx
    · intro x hx hxy
      rcases List.mem_cons.mp hx with rfl | hx
      · exact ⟨bd, hl, b, List.mem_cons_of_mem x hbL, hm⟩
      · obtain ⟨bd2, hl2, d2, hd2L, hd2r⟩ := hedges x hx hxy
        exact ⟨bd2, hl2, d2, List.mem_cons_of_mem a hd2L, hd2r⟩

theorem load_adds_all (cfg : List (String × Bundle)) (org : String) :
    ∀ fuel : Nat,
      (∀ (name : String) (st st' : RState),
        _load_bundle cfg org fuel name st = some st' →
        ∀ x ∈ st'.loaded_bundles,
          x ∈ st.loaded_bundles ∨ UPath cfg st.loaded_bundles name x)
      ∧ (∀ (ds : List String) (st st' : RState),
        loadList cfg org fuel ds st = some st' →
        ∀ x ∈ st'.loaded_bundles,
          x ∈ st.loaded_bundles ∨ ∃ d ∈ ds, UPath cfg st.loaded_bundles d x) := by
  intro fuel
  induction fuel with
  | zero =>
    constructor
    · intro name st st' h; cases h
    · intro ds st st' h x hx
      cases ds with
      | nil =>
        have h2 := Option.some.inj h
        subst h2
        exact Or.inl hx
      | cons d ds =>
        rw [loadList_cons] at h
        rw [show _load_bundle cfg org 0 d st = Option.none from rfl] at h
        cases h
  | succ f ih =>
    have hA : ∀ (name : String) (st st' : RState),
        _load_bundle cfg org (f + 1) name st = some st' →
        ∀ x ∈ st'.loaded_bundles,
          x ∈ st.loaded_bundles ∨ UPath cfg st.loaded_bundles name x := by
      intro name st st' h x hx
      rcases load_cases cfg org (f + 1) name st st' h with
        ⟨rfl, _⟩ | ⟨rfl, _⟩ | ⟨f2, bundle, st1, hf2, hm, hl, hload, rfl⟩
      · exact Or.inl hx
      · exact Or.inl hx
      · have hff : f2 = f := by omega
        rw [hff] at hload
        rcases List.mem_append.mp hx with hx1 | hx1
        · rcases ih.2 bundle.requires st st1 hload x hx1 with hmem | ⟨d, hd, hpath⟩
          · exact Or.inl hmem
          · exact Or.inr (UPath.step name d x hm bundle hl hd hpath)
        · rw [List.mem_singleton] at hx1
          subst hx1
          exact Or.inr (UPath.refl x hm)
    refine ⟨hA, ?_⟩
    intro ds
    induction ds with
    | nil =>
      intro st st' h x hx
      have h2 := Option.some.inj h
      subst h2
      exact Or.inl hx
    | cons d0 ds ihds =>
      intro st st' h x hx
      rw [loadList_cons] at h
      cases h2 : _load_bundle cfg org (f + 1) d0 st with
      | none => rw [h2] at h; cases h
      | some st2 =>
        rw [h2] at h
        rcases ihds st2 st' h x hx with hmem | ⟨d, hd, hpath⟩
        · rcases hA d0 st st2 h2 x hmem with hmem2 | hpath2
          · exact Or.inl hmem2
          · exact Or.inr ⟨d0, List.mem_cons_self d0 ds, hpath2⟩
        · have hsub : st.loaded_bundles <+: st2.loaded_bundles :=
            load_pfx cfg org (f + 1) d0 st st2 h2
          exact Or.inr ⟨d, List.mem_cons_of_mem d0 hd,
            UPath_anti cfg (fun y hy => hsub.subset hy) hpath⟩

end QueryBundleLoader

namespace QueryBundleLoader

theorem cycle_blocked (cfg : List (String × Bundle)) (org : String) (C : List String)
    (hC : CycleSet cfg C) :
    ∀ fuel : Nat,
      (∀ st : RState, (∀ c ∈ C, c ∉ st.loaded_bundles) →
        ∀ c ∈ C, _load_bundle cfg org fuel c st = Option.none)
      ∧ (∀ (name : String) (st st' : RState), (∀ c ∈ C, c ∉ st.loaded_bundles) →
        _load_bundle cfg org fuel name st = some st' →
        ∀ c ∈ C, c ∉ st'.loaded_bundles)
      ∧ (∀ (ds : List String) (st st' : RState), (∀ c ∈ C, c ∉ st.loaded_bundles) →
        loadList cfg org fuel ds st = some st' →
        ∀ c ∈ C, c ∉ st'.loaded_bundles) := by
  intro fuel
  induction fuel with
  | zero =>
    refine ⟨fun st _ c _ => rfl, ?_, ?_⟩
    · intro name st st' hd h c hc; cases h
    · intro ds st st' hd h c hc
      cases ds with
      | nil =>
        have h2 := Option.some.inj h
        subst h2
        exact hd c hc
      | cons d ds =>
        rw [loadList_cons] at h
        rw [show _load_bundle cfg org 0 d st = Option.none from rfl] at h
        cases h
  | succ f ih =>
    obtain ⟨ihA, ihB, ihC⟩ := ih
    have hA : ∀ st : RState, (∀ c ∈ C, c ∉ st.loaded_bundles) →
        ∀ c ∈ C, _load_bundle cfg org (f + 1) c st = Option.none := by
      intro st hdisj c hc
      obtain ⟨bd, hl, d, hdC, hdr⟩ := hC c hc
      rw [load_succ, if_neg (hdisj c hc), hl]
      dsimp only
      obtain ⟨pre, post, hsplit⟩ := List.append_of_mem hdr
      rw [hsplit, loadList_append]
      cases hpre : loadList cfg org f pre st with
      | none => rfl
      | some st2 =>
        have hdisj2 := ihC pre st st2 hdisj hpre
        dsimp only
        rw [loadList_cons, ihA st2 hdisj2 d hdC]
    have hB : ∀ (name : String) (st st' : RState), (∀ c ∈ C, c ∉ st.loaded_bundles) →
        _load_bundle cfg org (f + 1) name st = some st' →
        ∀ c ∈ C, c ∉ st'.loaded_bundles := by
      intro name st st' hdisj h c hc
      rcases load_cases cfg org (f + 1) name st st' h with
        ⟨rfl, _⟩ | ⟨rfl, _⟩ | ⟨f2, bundle, st1, hf2, hm, hl, hload, rfl⟩
      · exact hdisj c hc
      · exact hdisj c hc
      · have hff : f2 = f := by omega
        rw [hff] at hload
        by_cases hnc : name ∈ C
        · rw [hA st hdisj name hnc] at h
          cases h
        · have hdisj1 := ihC bundle.requires st st1 hdisj hload
          intro hmem
          rcases List.mem_append.mp hmem with hmem | hmem
          · exact hdisj1 c hc hmem
          · rw [List.mem_singleton] at hmem
            subst hmem
            exact hnc hc
    refine ⟨hA, hB, ?_⟩
    intro ds
    induction ds with
    | nil =>
      intro st st' hdisj h c hc
      have h2 := Option.some.inj h
      subst h2
      exact hdisj c hc
    | cons d0 ds ihds =>
      intro st st' hdisj h c hc
      rw [loadList_cons] at h
      cases h2 : _load_bundle cfg org (f + 1) d0 st with
      | none => rw [h2] at h; cases h
      | some st2 =>
        rw [h2] at h
        exact ihds st2 st' (fun c2 hc2 => hB d0 st st2 hdisj h2 c2 hc2) h c hc

theorem noReentry (cfg : List (String × Bundle)) (org : String) (fuel : Nat)
    (name : String) (bundle : Bundle) (st st1 : RState)
    (hm : name ∉ st.loaded_bundles) (hl : lookupBundle cfg name = some bundle)
    (hload : loadList cfg org fuel bundle.requires st = some st1) :
    name ∉ st1.loaded_bundles := by
  intro hmem
  rcases (load_adds_all cfg org fuel).2 bundle.requires st st1 hload name hmem with
    hloaded | ⟨d, hd, hpath⟩
  · exact hm hloaded
  · obtain ⟨L, hdL, hnameL, havoid, hedges⟩ := upath_cycle cfg hpath
    have hCC : CycleSet cfg L := by
      intro c hc
      by_cases hcy : c = name
      · subst hcy
        exact ⟨bundle, hl, d, hdL, hd⟩
      · obtain ⟨bd2, hl2, d2, hd2L, hd2r⟩ := hedges c hc hcy
        exact ⟨bd2, hl2, d2, hd2L, hd2r⟩
    exact (cycle_blocked cfg org L hCC fuel).2.2 bundle.requires st st1 havoid hload
      name hnameL hmem

theorem load_nodup (cfg : List (String × Bundle)) (org : String) :
    ∀ (fuel : Nat) (name : String) (st st' : RState),
      _load_bundle cfg org fuel name st = some st' →
      st.loaded_bundles.Nodup → st'.loaded_bundles.Nodup := by
  intro fuel
  induction fuel with
  | zero => intro _ _ _ h; cases h
  | succ f ih =>
    intro name st st' h hnd
    rcases load_cases cfg org (f + 1) name st st' h with
      ⟨rfl, _⟩ | ⟨rfl, _⟩ | ⟨f2, bundle, st1, hf2, hm, hl, hload, rfl⟩
    · exact hnd
    · exact hnd
    · have hff : f2 = f := by omega
      rw [hff] at hload
      have hnd1 : st1.loaded_bundles.Nodup :=
        loadList_pres cfg org f
          (P := fun a b => a.loaded_bundles.Nodup → b.loaded_bundles.Nodup)
          (fun s hs => hs) (fun _ _ _ hab hbc hs => hbc (hab hs)) ih
          bundle.requires st st1 hload hnd
      have hre : name ∉ st1.loaded_bundles :=
        noReentry cfg org f name bundle st st1 hm hl hload
      show (st1.loaded_bundles ++ [name]).Nodup
      rw [List.nodup_append]
      exact ⟨hnd1, List.nodup_singleton name,
        fun x hx1 hx2 => hre ((List.mem_singleton.mp hx2) ▸ hx1)⟩

theorem loadList_nodup (cfg : List (String × Bundle)) (org : String) (fuel : Nat)
    (ds : List String) (st st' : RState)
    (h : loadList cfg org fuel ds st = some st')
    (hnd : st.loaded_bundles.Nodup) : st'.loaded_bundles.Nodup :=
  loadList_pres cfg org fuel
    (P := fun a b => a.loaded_bundles.Nodup → b.loaded_bundles.Nodup)
    (fun s hs => hs) (fun _ _ _ hab hbc hs => hbc (hab hs))
    (load_nodup cfg org fuel) ds st st' h hnd

end QueryBundleLoader

namespace QueryBundleLoader

theorem before_append {α : Type} (l : List α) (a b : α) (ext : List α)
    (h : before l a b) : before (l ++ ext) a b := by
  obtain ⟨u, v, hdec, hAu⟩ := h
  exact ⟨u, v ++ ext, by rw [hdec]; simp, hAu⟩

theorem load_qinv (cfg : List (String × Bundle)) (org : String) :
    ∀ (fuel : Nat) (name : String) (st st' : RState),
      _load_bundle cfg org fuel name st = some st' →
      st.all_queries = st.loaded_bundles.flatMap (bundleQueries cfg org) →
      st'.all_queries = st'.loaded_bundles.flatMap (bundleQueries cfg org) := by
  intro fuel
  induction fuel with
  | zero => intro _ _ _ h; cases h
  | succ f ih =>
    intro name st st' h hq
    rcases load_cases cfg org (f + 1) name st st' h with
      ⟨rfl, _⟩ | ⟨rfl, _⟩ | ⟨f2, bundle, st1, hf2, hm, hl, hload, rfl⟩
    · exact hq
    · exact hq
    · have hff : f2 = f := by omega
      rw [hff] at hload
      have hq1 : st1.all_queries = st1.loaded_bundles.flatMap (bundleQueries cfg org) :=
        loadList_pres cfg org f
          (P := fun a b =>
            (a.all_queries = a.loaded_bundles.flatMap (bundleQueries cfg org)) →
            (b.all_queries = b.loaded_bundles.flatMap (bundleQueries cfg org)))
          (fun s hs => hs) (fun _ _ _ hab hbc hs => hbc (hab hs)) ih
          bundle.requires st st1 hload hq
      have hQ : bundleQueries cfg org name = parsedQueries bundle org := by
        simp only [bundleQueries, hl]
      show st1.all_queries ++ parsedQueries bundle org
          = (st1.loaded_bundles ++ [name]).flatMap (bundleQueries cfg org)
      rw [hq1]
      simp [hQ]

theorem load_einv (cfg : List (String × Bundle)) (org : String) :
    ∀ (fuel : Nat) (name : String) (st st' : RState),
      _load_bundle cfg org fuel name st = some st' →
      (∀ x ∈ st.loaded_bundles, (lookupBundle cfg x).isSome) →
      (∀ x ∈ st'.loaded_bundles, (lookupBundle cfg x).isSome) := by
  intro fuel
  induction fuel with
  | zero => intro _ _ _ h; cases h
  | succ f ih =>
    intro name st st' h he
    rcases load_cases cfg org (f + 1) name st st' h with
      ⟨rfl, _⟩ | ⟨rfl, _⟩ | ⟨f2, bundle, st1, hf2, hm, hl, hload, rfl⟩
    · exact he
    · exact he
    · have hff : f2 = f := by omega
      rw [hff] at hload
      have he1 : ∀ x ∈ st1.loaded_bundles, (lookupBundle cfg x).isSome :=
        loadList_pres cfg org f
          (P := fun a b =>
            (∀ x ∈ a.loaded_bundles, (lookupBundle cfg x).isSome) →
            (∀ x ∈ b.loaded_bundles, (lookupBundle cfg x).isSome))
          (fun s hs => hs) (fun _ _ _ hab hbc hs => hbc (hab hs)) ih
          bundle.requires st st1 hload he
      intro x hx
      rcases List.mem_append.mp hx with hx | hx
      · exact he1 x hx
      · rw [List.mem_singleton] at hx
        subst hx
        rw [hl]
        rfl

theorem load_depinv (cfg : List (String × Bundle)) (org : String) :
    ∀ (fuel : Nat) (name : String) (st st' : RState),
      _load_bundle cfg org fuel name st = some st' →
      (∀ nm ∈ st.loaded_bundles, ∀ bd, lookupBundle cfg nm = some bd →
        ∀ d ∈ bd.requires, (lookupBundle cfg d).isSome → before st.loaded_bundles d nm) →
      (∀ nm ∈ st'.loaded_bundles, ∀ bd, lookupBundle cfg nm = some bd →
        ∀ d ∈ bd.requires, (lookupBundle cfg d).isSome → before st'.loaded_bundles d nm) := by
  intro fuel
  induction fuel with
  | zero => intro _ _ _ h; cases h
  | succ f ih =>
    intro name st st' h hdep
    rcases load_cases cfg org (f + 1) name st st' h with
      ⟨rfl, _⟩ | ⟨rfl, _⟩ | ⟨f2, bundle, st1, hf2, hm, hl, hload, rfl⟩
    · exact hdep
    · exact hdep
    · have hff : f2 = f := by omega
      rw [hff] at hload
      have hdep1 : ∀ nm ∈ st1.loaded_bundles, ∀ bd, lookupBundle cfg nm = some bd →
          ∀ d ∈ bd.requires, (lookupBundle cfg d).isSome →
            before st1.loaded_bundles d nm :=
        loadList_pres cfg org f
          (P := fun a b =>
            (∀ nm ∈ a.loaded_bundles, ∀ bd, lookupBundle cfg nm = some bd →
              ∀ d ∈ bd.requires, (lookupBundle cfg d).isSome →
                before a.loaded_bundles d nm) →
            (∀ nm ∈ b.loaded_bundles, ∀ bd, lookupBundle cfg nm = some bd →
              ∀ d ∈ bd.requires, (lookupBundle cfg d).isSome →
                before b.loaded_bundles d nm))
          (fun s hs => hs) (fun _ _ _ hab hbc hs => hbc (hab hs)) ih
          bundle.requires st st1 hload hdep
      intro nm hnm bd hbd d hd hdS
      rcases List.mem_append.mp hnm with hnm | hnm
      · exact before_append st1.loaded_bundles d nm [name] (hdep1 nm hnm bd hbd d hd hdS)
      · rw [List.mem_singleton] at hnm
        subst hnm
        rw [hl] at hbd
        have hbd2 := Option.some.inj hbd
        subst hbd2
        have hdm : d ∈ st1.loaded_bundles :=
          loadList_complete cfg org f bundle.requires st st1 hload d hd hdS
        exact ⟨st1.loaded_bundles, [], rfl, hdm⟩

end QueryBundleLoader

/-- C1: for every bundle configuration and request list containing a bundle
`B` whose `requires` lists `A`, in any completed run of `resolve_bundles`
every query contributed by bundle `A` precedes every query contributed by
bundle `B` in the returned query list: the list splits into whole
per-bundle segments with `A`'s single segment strictly before `B`'s. -/
theorem c1_dependency_ordering (cfg : List (String × QueryBundleLoader.Bundle))
    (org : String) (fuel : Nat) (names : List String) (A B : String)
    (bB : QueryBundleLoader.Bundle)
    (hB : QueryBundleLoader.lookupBundle cfg B = some bB)
    (hA : A ∈ bB.requires) (hBn : B ∈ names)
    (out : List PyVal × List String × List (String × List (String × PyVal)))
    (hres : QueryBundleLoader.resolve_bundles cfg org fuel names = some out) :
    QueryBundleLoader.queriesSeparated (QueryBundleLoader.bundleQueries cfg org)
      out.1 A B := by
  rw [QueryBundleLoader.resolve_bundles] at hres
  cases hload : QueryBundleLoader.loadList cfg org fuel names ⟨[], [], [], []⟩ with
  | none => rw [hload] at hres; cases hres
  | some stF =>
    rw [hload] at hres
    have hout : (stF.all_queries, stF.all_stats, stF.block_configs) = out :=
      Option.some.inj hres
    obtain rfl := hout.symm
    show QueryBundleLoader.queriesSeparated
      (QueryBundleLoader.bundleQueries cfg org) stF.all_queries A B
    have hq : stF.all_queries
        = stF.loaded_bundles.flatMap (QueryBundleLoader.bundleQueries cfg org) :=
      QueryBundleLoader.loadList_pres cfg org fuel
        (P := fun a b =>
          (a.all_queries
            = a.loaded_bundles.flatMap (QueryBundleLoader.bundleQueries cfg org)) →
          (b.all_queries
            = b.loaded_bundles.flatMap (QueryBundleLoader.bundleQueries cfg org)))
        (fun s hs => hs) (fun _ _ _ hab hbc hs => hbc (hab hs))
        (QueryBundleLoader.load_qinv cfg org fuel) names _ stF hload rfl
    have hnd : stF.loaded_bundles.Nodup :=
      QueryBundleLoader.loadList_nodup cfg org fuel names _ stF hload List.nodup_nil
    have hein : ∀ x ∈ stF.loaded_bundles, (QueryBundleLoader.lookupBundle cfg x).isSome :=
      QueryBundleLoader.loadList_pres cfg org fuel
        (P := fun a b =>
          (∀ x ∈ a.loaded_bundles, (QueryBundleLoader.lookupBundle cfg x).isSome) →
          (∀ x ∈ b.loaded_bundles, (QueryBundleLoader.lookupBundle cfg x).isSome))
        (fun s hs => hs) (fun _ _ _ hab hbc hs => hbc (hab hs))
        (QueryBundleLoader.load_einv cfg org fuel) names _ stF hload
        (fun x hx => absurd hx (List.not_mem_nil x))
    have hdep : ∀ nm ∈ stF.loaded_bundles, ∀ bd,
        QueryBundleLoader.lookupBundle cfg nm = some bd →
        ∀ d ∈ bd.requires, (QueryBundleLoader.lookupBundle cfg d).isSome →
          QueryBundleLoader.before stF.loaded_bundles d nm :=
      QueryBundleLoader.loadList_pres cfg org fuel
        (P := fun a b =>
          (∀ nm ∈ a.loaded_bundles, ∀ bd,
            QueryBundleLoader.lookupBundle cfg nm = some bd →
            ∀ d ∈ bd.requires, (QueryBundleLoader.lookupBundle cfg d).isSome →
              QueryBundleLoader.before a.loaded_bundles d nm) →
          (∀ nm ∈ b.loaded_bundles, ∀ bd,
            QueryBundleLoader.lookupBundle cfg nm = some bd →
            ∀ d ∈ bd.requires, (QueryBundleLoader.lookupBundle cfg d).isSome →
              QueryBundleLoader.before b.loaded_bundles d nm))
        (fun s hs => hs) (fun _ _ _ hab hbc hs => hbc (hab hs))
        (QueryBundleLoader.load_depinv cfg org fuel) names _ stF hload
        (fun nm hnm => absurd hnm (List.not_mem_nil nm))
    have hBmem : B ∈ stF.loaded_bundles :=
      QueryBundleLoader.loadList_complete cfg org fuel names _ stF hload B hBn
        (by rw [hB]; rfl)
    cases hlA : QueryBundleLoader.lookupBundle cfg A with
    | some bA =>
      have hbef := hdep B hBmem bB hB A hA (by rw [hlA]; rfl)
      obtain ⟨u, v, hdecomp, hAu⟩ := hbef
      obtain ⟨u1, u2, hu⟩ := List.append_of_mem hAu
      subst hu
      rw [hq, hdecomp]
      rw [hdecomp] at hnd
      rw [List.nodup_append] at hnd
      obtain ⟨hndL, hndR, hdisj⟩ := hnd
      rw [List.nodup_append] at hndL
      obtain ⟨hndu1, hndAu2, hdisjL⟩ := hndL
      refine ⟨u1, u2, v, ?_, ?_, ?_, ?_, ?_, ?_, ?_⟩
      · simp [List.flatMap_append, List.flatMap_cons, List.append_assoc]
      · intro hmem
        exact hdisjL hmem (List.mem_cons_self A u2)
      · exact (List.nodup_cons.mp hndAu2).1
      · intro hmem
        exact hdisj (List.mem_append_right u1 (List.mem_cons_self A u2))
          (List.mem_cons_of_mem B hmem)
      · intro hmem
        exact hdisj (List.mem_append_left _ hmem) (List.mem_cons_self B v)
      · intro hmem
        exact hdisj (List.mem_append_right u1 (List.mem_cons_of_mem A hmem))
          (List.mem_cons_self B v)
      · exact (List.nodup_cons.mp hndR).1
    | none =>
      have hAQ : QueryBundleLoader.bundleQueries cfg org A = [] := by
        simp only [QueryBundleLoader.bundleQueries, hlA]
      have hAnot : A ∉ stF.loaded_bundles := by
        intro hmem
        have hs := hein A hmem
        rw [hlA] at hs
        simp at hs
      obtain ⟨w1, w2, hw⟩ := List.append_of_mem hBmem
      rw [hq, hw]
      rw [hw] at hnd
      rw [List.nodup_append] at hnd
      obtain ⟨hndw1, hndR, hdisj⟩ := hnd
      refine ⟨w1, [], w2, ?_, ?_, ?_, ?_, ?_, ?_, ?_⟩
      · simp [hAQ, List.flatMap_append, List.flatMap_cons]
      · intro hmem
        exact hAnot (by rw [hw]; exact List.mem_append_left _ hmem)
      · exact List.not_mem_nil A
      · intro hmem
        exact hAnot (by rw [hw]; exact List.mem_append_right _ (List.mem_cons_of_mem B hmem))
      · intro hmem
        exact hdisj hmem (List.mem_cons_self B w2)
      · exact List.not_mem_nil B
      · exact (List.nodup_cons.mp hndR).1

/-- Closed witness for C1: in `cfgAB`, where bundle `B` requires `A`,
requesting `["B"]` yields a query list in which `A`'s query segment
precedes `B`'s. -/
theorem c1_dependency_ordering_witness :
    QueryBundleLoader.queriesSeparated
      (QueryBundleLoader.bundleQueries Examples.cfgAB "예술의전당")
      Examples.outAB.1 "A" "B" :=
  c1_dependency_ordering Examples.cfgAB "예술의전당" 3 ["B"] "A" "B" Examples.bundleB
    rfl (by simp [Examples.bundleB]) (by simp) Examples.outAB (by rfl)
